import Mathlib

/-!
Verification development for the esy build orchestrator core.

The JavaScript sources are embedded shallowly: pure functions become Lean
functions over `String`/`List`/`Int`, the SHA-1 primitive (an external
library call) is abstracted as a `String → String` parameter, and
filesystem effects are represented by explicit inputs describing what the
code would read from disk.
-/

namespace Esy

/-! ## Package-name normalization (src/esy/util.js)

`normalizePackageName` chains six transformations over the name:
lower-casing, a global replacement deleting every `@`, a global
regex replacement appending two underscores to each maximal run of
underscores, and global single-character replacements of the slash, dot
and dash characters. JavaScript's Unicode lower-casing is modelled by
`Char.toLower` (ASCII); the claims only exercise ASCII names. -/

/-- One global regex replacement of a single character by a fixed string. -/
def replaceChar (c : Char) (s : List Char) (l : List Char) : List Char :=
  (l.map (fun x => if x = c then s else [x])).flatten

/-- Worker for the underscore-run replacement step of
`normalizePackageName`. The boolean records whether the previous character
was an underscore, i.e. whether a run is open; two underscores are emitted
each time a run closes (at a non-underscore character or at the end). -/
def expandUnderscoresGo : Bool → List Char → List Char
  | inRun, [] => if inRun then ['_', '_'] else []
  | inRun, c :: rest =>
    if c = '_' then '_' :: expandUnderscoresGo true rest
    else (if inRun then ['_', '_'] else []) ++ c :: expandUnderscoresGo false rest

/-- The underscore-run replacement step of `normalizePackageName`: each
maximal run of underscores is kept and two more underscores are appended
to it (the source's replacer returns `matched + '__'`). -/
def expandUnderscores (l : List Char) : List Char :=
  expandUnderscoresGo false l

/-- `normalizePackageName` from src/esy/util.js. -/
def normalizePackageName (name : String) : String :=
  let cs := name.toList.map Char.toLower
  let cs := cs.filter (· ≠ '@')
  let cs := expandUnderscores cs
  let cs := replaceChar '/' "__slash__".toList cs
  let cs := replaceChar '.' "__dot__".toList cs
  let cs := replaceChar '-' "_".toList cs
  String.mk cs

/-- Modelled from the spec: the spec's description of `normalize` says it
"expands `_→__`", i.e. each single underscore becomes two underscores.
This definition follows the spec's words so it can be compared with the
source's `normalizePackageName` above. -/
def specNormalizePackageName (name : String) : String :=
  let cs := name.toList.map Char.toLower
  let cs := cs.filter (· ≠ '@')
  let cs := replaceChar '_' "__".toList cs
  let cs := replaceChar '/' "__slash__".toList cs
  let cs := replaceChar '.' "__dot__".toList cs
  let cs := replaceChar '-' "_".toList cs
  String.mk cs

/-- The id format from `calculateBuildId`:
`normalizePackageName(name) + "-" + (version || '0.0.0') + "-" + h`.
The JavaScript falsiness of `version` is the empty string here. -/
def mkBuildId (name version hex : String) : String :=
  normalizePackageName name ++ "-" ++ (if version = "" then "0.0.0" else version)
    ++ "-" ++ hex

lemma expandUnderscoresGo_append_of_not_mem {a : List Char} (ha : '_' ∉ a)
    (l : List Char) :
    expandUnderscoresGo false (a ++ l) = a ++ expandUnderscoresGo false l := by
  induction a with
  | nil => rfl
  | cons c t ih =>
    have hc : c ≠ '_' := fun h => ha (h ▸ List.mem_cons_self c t)
    have ht : '_' ∉ t := fun h => ha (List.mem_cons_of_mem c h)
    simp [expandUnderscoresGo, hc, ih ht]

lemma expandUnderscoresGo_true_run (k : Nat) {b : List Char}
    (hb : b.head? ≠ some '_') :
    expandUnderscoresGo true (List.replicate k '_' ++ b) =
      List.replicate k '_' ++ '_' :: '_' :: expandUnderscoresGo false b := by
  induction k with
  | zero =>
    cases b with
    | nil => rfl
    | cons c t =>
      have hc : c ≠ '_' := fun h => hb (by simp [h])
      simp [expandUnderscoresGo, hc]
  | succ n ih =>
    simp [List.replicate_succ, expandUnderscoresGo, ih]

lemma slash_not_mem_replaceChar {x c : Char} {s l : List Char}
    (hs : x ∉ s) (himp : ∀ y ∈ l, y ≠ c → y ≠ x) :
    x ∉ replaceChar c s l := by
  intro hx
  simp only [replaceChar, List.mem_flatten, List.mem_map] at hx
  obtain ⟨w, ⟨y, hy, rfl⟩, hw⟩ := hx
  by_cases h : y = c
  · simp [h] at hw; exact hs hw
  · simp [h] at hw; exact (himp y hy h) hw.symm

lemma slash_not_mem_normalize (name : String) :
    '/' ∉ (normalizePackageName name).data := by
  show '/' ∉ (replaceChar '-' "_".toList _ : List Char)
  apply slash_not_mem_replaceChar (by decide)
  intro y hy _
  intro hcontr
  subst hcontr
  revert hy
  apply slash_not_mem_replaceChar (by decide)
  intro z hz _
  intro hcontr
  subst hcontr
  revert hz
  exact slash_not_mem_replaceChar (by decide) (fun w _ hw => hw)

/-- C5: the claim reads the underscore rule as expanding every single
underscore to two underscores; the source's replacer instead appends two
underscores to each maximal run, so `"a_b"` normalizes to `"a___b"`, not
the claimed `"a__b"` (which `specNormalizePackageName`, modelled from the
spec's words, produces). -/
theorem C5_counterexample :
    normalizePackageName "a_b" ≠ specNormalizePackageName "a_b" := by
  decide

/-- C5 (amended): `normalizePackageName` lower-cases, strips `@`, appends
two underscores to each maximal run of underscores (so a lone `_` becomes
`___`), maps `/` to `__slash__`, `.` to `__dot__` and `-` to `_`; and the
id `normalize(name) + "-" + (version or "0.0.0") + "-" + hex` is a valid
POSIX path component (nonempty and slash-free) whenever `version` and
`hex` are slash-free. -/
theorem C5_amended :
    (∀ (a : List Char) (k : Nat) (b : List Char), '_' ∉ a →
        b.head? ≠ some '_' →
        expandUnderscores (a ++ List.replicate (k + 1) '_' ++ b) =
          a ++ List.replicate (k + 1) '_' ++ '_' :: '_' :: expandUnderscores b)
    ∧ (∀ name version hex : String, '/' ∉ version.data → '/' ∉ hex.data →
        mkBuildId name version hex ≠ "" ∧ '/' ∉ (mkBuildId name version hex).data)
    ∧ normalizePackageName "a_b" = "a___b"
    ∧ normalizePackageName "A@b-c.d/e" = "ab_c__dot__d__slash__e" := by
  refine ⟨?_, ?_, by decide, by decide⟩
  · intro a k b ha hb
    have h1 := expandUnderscoresGo_append_of_not_mem ha
      (List.replicate (k + 1) '_' ++ b)
    have h2 := expandUnderscoresGo_true_run k hb
    simp only [expandUnderscores, List.append_assoc, h1]
    simp [List.replicate_succ, expandUnderscoresGo, h2]
  · intro name version hex hv hh
    constructor
    · intro h
      have : (mkBuildId name version hex).data = [] := by simp [h]
      simp only [mkBuildId, String.data_append] at this
      rcases List.append_eq_nil.1 this with ⟨h1, -⟩
      rcases List.append_eq_nil.1 h1 with ⟨-, h3⟩
      exact absurd h3 (by decide)
    · simp only [mkBuildId, String.data_append, List.mem_append]
      push_neg
      refine ⟨⟨⟨⟨slash_not_mem_normalize name, by decide⟩, ?_⟩, by decide⟩, hh⟩
      split
      · decide
      · exact hv

theorem C5_amended_witness :
    ('_' ∉ (['a'] : List Char) ∧ (['b'] : List Char).head? ≠ some '_' ∧
      expandUnderscores (['a'] ++ List.replicate 1 '_' ++ ['b']) =
        ['a'] ++ List.replicate 1 '_' ++ '_' :: '_' :: expandUnderscores ['b'])
    ∧ ('/' ∉ "1.0.0".data ∧ '/' ∉ "abc".data ∧
        mkBuildId "a_b" "1.0.0" "abc" ≠ "" ∧
        '/' ∉ (mkBuildId "a_b" "1.0.0" "abc").data) :=
  ⟨⟨by decide, by decide, C5_amended.1 ['a'] 0 ['b'] (by decide) (by decide)⟩,
   by decide, by decide, C5_amended.2.1 "a_b" "1.0.0" "abc" (by decide) (by decide)⟩

/-! ## Store paths (src/esy/build-config.js)

`createConfig` builds five path functions over a `BuildSpec`. Only the
fields of `BuildSpec` read by those functions are modelled here. Node's
`path.join` is modelled as joining the nonempty segments with a slash;
dot-segment normalization is not modelled, since store roots, tree names,
build ids and the segments passed by the builder are literal components. -/

structure BuildSpec where
  id : String
  sourcePath : String
  shouldBePersisted : Bool
  mutatesSourcePath : Bool

def joinPartsGo : List String → String
  | [] => ""
  | [p] => p
  | p :: ps => p ++ "/" ++ joinPartsGo ps

/-- The model of `path.join`: empty segments are skipped, the rest are
joined with `/`. -/
def pathJoin (parts : List String) : String :=
  joinPartsGo (parts.filter (· ≠ ""))

structure BuildConfigParams where
  storePath : String
  sandboxPath : String

def sandboxLocalStorePath (p : BuildConfigParams) : String :=
  pathJoin [p.sandboxPath, "node_modules", ".cache", "_esy", "store"]

/-- The internal `genPath` helper of `createConfig`: persisted builds live
under `storePath`, the rest under the sandbox-local store. -/
def genPath (p : BuildConfigParams) (build : BuildSpec) (tree : String)
    (segments : List String) : String :=
  if build.shouldBePersisted then
    pathJoin (p.storePath :: tree :: build.id :: segments)
  else
    pathJoin (sandboxLocalStorePath p :: tree :: build.id :: segments)

def getSourcePath (p : BuildConfigParams) (build : BuildSpec)
    (segments : List String) : String :=
  pathJoin (p.sandboxPath :: build.sourcePath :: segments)

def getRootPath (p : BuildConfigParams) (build : BuildSpec)
    (segments : List String) : String :=
  if build.mutatesSourcePath then genPath p build "_build" segments
  else pathJoin (p.sandboxPath :: build.sourcePath :: segments)

def getBuildPath (p : BuildConfigParams) (build : BuildSpec)
    (segments : List String) : String :=
  genPath p build "_build" segments

def getInstallPath (p : BuildConfigParams) (build : BuildSpec)
    (segments : List String) : String :=
  genPath p build "_insttmp" segments

def getFinalInstallPath (p : BuildConfigParams) (build : BuildSpec)
    (segments : List String) : String :=
  genPath p build "_install" segments

/-- The store root `genPath` selects for a build. -/
def storeRootFor (p : BuildConfigParams) (build : BuildSpec) : String :=
  if build.shouldBePersisted then p.storePath else sandboxLocalStorePath p

lemma joinPartsGo_cons {l : List String} (x : String) (hl : l ≠ []) :
    joinPartsGo (x :: l) = x ++ "/" ++ joinPartsGo l := by
  cases l with
  | nil => exact absurd rfl hl
  | cons y ys => rfl

lemma joinPartsGo_length_congr (a b : String) (hlen : a.length = b.length) :
    ∀ (xs ys : List String),
      (joinPartsGo (xs ++ a :: ys)).length = (joinPartsGo (xs ++ b :: ys)).length := by
  intro xs
  induction xs with
  | nil =>
    intro ys
    cases ys with
    | nil => simpa using hlen
    | cons y ys =>
      rw [List.nil_append, List.nil_append,
        joinPartsGo_cons a (by simp), joinPartsGo_cons b (by simp)]
      simp [String.length_append, hlen]
  | cons x xs ih =>
    intro ys
    rw [List.cons_append, List.cons_append,
      joinPartsGo_cons x (by simp), joinPartsGo_cons x (by simp)]
    simp [String.length_append, ih ys]

lemma pathJoin_length_congr (pre post : List String) (a b : String)
    (hlen : a.length = b.length) (ha : a ≠ "") (hb : b ≠ "") :
    (pathJoin (pre ++ a :: post)).length = (pathJoin (pre ++ b :: post)).length := by
  unfold pathJoin
  rw [List.filter_append, List.filter_append,
    List.filter_cons_of_pos (by simpa using ha),
    List.filter_cons_of_pos (by simpa using hb)]
  exact joinPartsGo_length_congr a b hlen _ _

/-- C6: for every build spec and segment list, `getInstallPath` and
`getFinalInstallPath` produce strings of exactly equal length; both are
placed under the store root selected by `shouldBePersisted` and differ
only in the tree component, `_insttmp` versus `_install`, each 8
characters long. -/
theorem C6_install_paths_equal_length (p : BuildConfigParams)
    (build : BuildSpec) (segments : List String) :
    (getInstallPath p build segments).length =
        (getFinalInstallPath p build segments).length
    ∧ getInstallPath p build segments =
        pathJoin (storeRootFor p build :: "_insttmp" :: build.id :: segments)
    ∧ getFinalInstallPath p build segments =
        pathJoin (storeRootFor p build :: "_install" :: build.id :: segments)
    ∧ ("_insttmp" : String).length = 8 ∧ ("_install" : String).length = 8 := by
  refine ⟨?_, ?_, ?_, by decide, by decide⟩
  · show (genPath p build "_insttmp" segments).length =
      (genPath p build "_install" segments).length
    unfold genPath
    by_cases h : build.shouldBePersisted = true
    · rw [if_pos h, if_pos h]
      exact pathJoin_length_congr [_] (build.id :: segments) "_insttmp" "_install"
        (by decide) (by decide) (by decide)
    · rw [if_neg h, if_neg h]
      exact pathJoin_length_congr [_] (build.id :: segments) "_insttmp" "_install"
        (by decide) (by decide) (by decide)
  · unfold getInstallPath genPath storeRootFor
    by_cases h : build.shouldBePersisted = true <;> simp [h]
  · unfold getFinalInstallPath genPath storeRootFor
    by_cases h : build.shouldBePersisted = true <;> simp [h]

/-! ## Build driver (builders/simple-builder.js)

`performBuildMemoized` decides, per task, between reporting a cached
success and scheduling `performBuildWithStatusReport`; the topological
fold's reducer turns the dependencies' final states into the decision for
the dependent. The filesystem facts the driver reads (store hit, stored
checksum, freshly computed source checksum) and the outcome of actually
running the build are passed in explicitly as a `DriverEnv`. -/

inductive FinalBuildState where
  | success (timeEllapsed : Option Nat) (cached : Bool) (forced : Bool)
  | failure (error : String)
deriving DecidableEq

/-- The `cachedSuccessStatus` literal of `performBuildMemoized`. -/
def cachedSuccessStatus : FinalBuildState := .success none true false

structure DriverEnv where
  isInStore : Bool
  storedChecksum : Option String
  currentChecksum : String
  buildOutcome : Except String Nat

/-- `performBuildWithStatusReport`: queue `performBuild`; a throw yields a
failure state, otherwise a success with the elapsed time and the given
forced flag, never cached. -/
def performBuildWithStatusReport (env : DriverEnv) (forced : Bool) :
    FinalBuildState :=
  match env.buildOutcome with
  | .error e => .failure e
  | .ok t => .success (some t) false forced

/-- What a `performBuildMemoized` call did: its final state, whether
`performBuild` was actually invoked, and whether `_esy/checksum` was
(re)written. -/
structure MemoOutcome where
  result : FinalBuildState
  performedBuild : Bool
  wroteChecksum : Bool
deriving DecidableEq

/-- The branch structure of `performBuildMemoized` for a task that is not
yet in the `taskInProgress` map. -/
def performBuildMemoized (persisted : Bool) (env : DriverEnv)
    (forced : Bool) : MemoOutcome :=
  if forced then
    if persisted then
      ⟨performBuildWithStatusReport env true, true, false⟩
    else
      ⟨performBuildWithStatusReport env true, true, true⟩
  else
    if persisted && env.isInStore then
      ⟨cachedSuccessStatus, false, false⟩
    else if !persisted then
      if env.isInStore && (env.storedChecksum == some env.currentChecksum) then
        ⟨cachedSuccessStatus, false, false⟩
      else
        ⟨performBuildWithStatusReport env true, true, true⟩
    else
      ⟨performBuildWithStatusReport env false, true, false⟩

def isFailureState : FinalBuildState → Bool
  | .failure _ => true
  | _ => false

/-- The reducer's test `state.state === 'success' && state.forced`. -/
def isForcedSuccess : FinalBuildState → Bool
  | .success _ _ forced => forced
  | _ => false

/-- Modelled from the spec: the claim's notion of a dependency result
"indicating it was actually re-executed", namely `forced=true` or
`cached=false` on a success. -/
def isReexecutedSuccess : FinalBuildState → Bool
  | .success _ cached forced => forced || !cached
  | _ => false

/-- The reducer the driver passes to `Graph.topologicalFold`: fail fast
when a dependency failed, force when a dependency's success was forced,
otherwise build normally. -/
def buildFoldStep (depStates : List FinalBuildState) (persisted : Bool)
    (env : DriverEnv) : MemoOutcome :=
  if depStates.any isFailureState then
    ⟨.failure "dependencies are not built", false, false⟩
  else if depStates.any isForcedSuccess then
    performBuildMemoized persisted env true
  else
    performBuildMemoized persisted env false

/-- C3: a direct dependency that was re-executed without being forced
(success with `cached=false`, `forced=false` — a persisted build absent
from the store) does not force the dependent: with the dependent persisted
and present in the store, the reducer reports a cached success and
performs no build, contradicting the claim that any re-executed dependency
(`forced=true` or `cached=false`) forces the dependent. -/
theorem C3_counterexample :
    isReexecutedSuccess (.success (some 5) false false) = true
    ∧ buildFoldStep [.success (some 5) false false] true
        ⟨true, none, "c", .ok 7⟩ =
        ⟨.success none true false, false, false⟩
    ∧ isForcedSuccess (.success none true false) = false := by
  decide

/-- C3 (amended): whenever no direct dependency failed and some direct
dependency's success result reports `forced=true`, the dependent task is
built in forced mode: `performBuild` runs (its cached artifact is not
consulted) and on success its own result reports `forced=true` and
`cached=false`. A dependency result with `cached=false` but `forced=false`
does not force the dependent. -/
lemma performBuildMemoized_forced_performed (persisted : Bool)
    (env : DriverEnv) :
    (performBuildMemoized persisted env true).performedBuild = true := by
  cases persisted <;> rfl

lemma performBuildMemoized_forced_result (persisted : Bool) (env : DriverEnv)
    (t : Nat) (ht : env.buildOutcome = .ok t) :
    (performBuildMemoized persisted env true).result =
      .success (some t) false true := by
  cases persisted <;>
    simp [performBuildMemoized, performBuildWithStatusReport, ht]

theorem C3_amended (depStates : List FinalBuildState) (persisted : Bool)
    (env : DriverEnv)
    (hnf : ∀ s ∈ depStates, isFailureState s = false)
    (hf : ∃ s ∈ depStates, isForcedSuccess s = true) :
    (buildFoldStep depStates persisted env).performedBuild = true
    ∧ ∀ t, env.buildOutcome = .ok t →
        (buildFoldStep depStates persisted env).result =
          .success (some t) false true := by
  have h1 : depStates.any isFailureState = false := by
    simp only [List.any_eq_false]
    intro s hs
    simp [hnf s hs]
  have h2 : depStates.any isForcedSuccess = true := by
    simp only [List.any_eq_true]
    obtain ⟨s, hs, h⟩ := hf
    exact ⟨s, hs, h⟩
  unfold buildFoldStep
  rw [h1, h2]
  exact ⟨performBuildMemoized_forced_performed persisted env,
    fun t ht => performBuildMemoized_forced_result persisted env t ht⟩

theorem C3_amended_witness :
    ((∀ s ∈ [FinalBuildState.success (some 3) false true],
        isFailureState s = false)
      ∧ (∃ s ∈ [FinalBuildState.success (some 3) false true],
          isForcedSuccess s = true))
    ∧ ((buildFoldStep [.success (some 3) false true] true
          ⟨true, none, "c", .ok 9⟩).performedBuild = true
        ∧ ∀ t, (DriverEnv.mk true none "c" (.ok 9)).buildOutcome = .ok t →
            (buildFoldStep [.success (some 3) false true] true
              ⟨true, none, "c", .ok 9⟩).result = .success (some t) false true) :=
  ⟨⟨by decide,
    ⟨FinalBuildState.success (some 3) false true, by simp, by decide⟩⟩,
    C3_amended [.success (some 3) false true] true ⟨true, none, "c", .ok 9⟩
      (by decide)
      ⟨FinalBuildState.success (some 3) false true, by simp, by decide⟩⟩

/-- C4: for a non-persisted, non-forced task the driver reports a cached
success and performs no build exactly when the final install directory
exists and the stored checksum equals the freshly computed source mtime
checksum; in every other case `performBuild` runs and, on success, the new
checksum is written. -/
theorem C4_nonpersisted_change_detection (env : DriverEnv) :
    (((performBuildMemoized false env false).performedBuild = false
        ∧ (performBuildMemoized false env false).result = cachedSuccessStatus)
      ↔ (env.isInStore = true
          ∧ env.storedChecksum = some env.currentChecksum))
    ∧ (¬(env.isInStore = true
          ∧ env.storedChecksum = some env.currentChecksum) →
        (performBuildMemoized false env false).performedBuild = true
        ∧ ∀ t, env.buildOutcome = .ok t →
            (performBuildMemoized false env false).wroteChecksum = true
            ∧ (performBuildMemoized false env false).result =
                .success (some t) false true) := by
  obtain ⟨store, stored, cur, outcome⟩ := env
  cases store <;> by_cases hm : stored = some cur <;> cases outcome <;>
    simp [performBuildMemoized, performBuildWithStatusReport,
      cachedSuccessStatus, hm, beq_iff_eq]

theorem C4_nonpersisted_change_detection_witness :
    (((performBuildMemoized false ⟨true, some "x", "x", .ok 4⟩ false).performedBuild
          = false
        ∧ (performBuildMemoized false ⟨true, some "x", "x", .ok 4⟩ false).result
          = cachedSuccessStatus)
      ↔ ((true : Bool) = true ∧ (some "x" : Option String) = some "x")) :=
  (C4_nonpersisted_change_detection ⟨true, some "x", "x", .ok 4⟩).1

/-! ## Ejected-environment conflict diagnostics (environment.js)

`addEnvConfigForPackage` walks a package's exported environment against
the `seenVars` accumulator and pushes one diagnostic when the incumbent
binding was declared `exclusive:true` and another when the new binding is
itself `exclusive:true`. `relativeToSandbox` inspects the real filesystem
(`fs.realpathSync`), so it is abstracted as a `String → String`
parameter. -/

structure EnvVarExport where
  val : Option String
  builtInDoNotUse : Bool
  exclusive : Bool
deriving DecidableEq

structure SeenVarEntry where
  packageJsonPath : String
  config : EnvVarExport
deriving DecidableEq

structure EnvironmentVar where
  name : String
  value : Option String
  automaticDefault : Bool

structure EnvironmentConfigState where
  seenVars : List (String × SeenVarEntry)
  errors : List String
  normalizedEnvVars : List EnvironmentVar

/-- The diagnostic pushed when the incumbent declarer of the variable set
`exclusive:true`, prefixed for built-in incumbents. -/
def overrideExclusiveMsg (builtIn : Bool) (envVar relSeenPath packageName : String) :
    String :=
  (if builtIn then "Built-in variable " else "") ++ envVar
    ++ " has already been set by " ++ relSeenPath ++ " "
    ++ "which configured it with exclusive:true. That means it wants to be the only one to set it. Yet "
    ++ packageName ++ " is trying to override it."

/-- The diagnostic pushed when the new binding itself sets
`exclusive:true` over an existing name. -/
def newExclusiveMsg (envVar relSeenPath packageName : String) : String :=
  envVar ++ " has already been set by " ++ relSeenPath ++ " " ++ "and "
    ++ packageName ++ " has configured it with exclusive:true. "
    ++ "Sometimes you can reduce the likehood of conflicts by marking some packages as buildTimeOnlyDependencies."

/-- The two conflict checks `addEnvConfigForPackage` runs for one
`exportedEnv` entry, in source order. -/
def errorsForEntry (seenVars : List (String × SeenVarEntry))
    (relTo : String → String) (packageName envVar : String)
    (config : EnvVarExport) : List String :=
  match seenVars.lookup envVar with
  | none => []
  | some seen =>
    (if seen.config.exclusive then
      [overrideExclusiveMsg seen.config.builtInDoNotUse envVar
        (relTo seen.packageJsonPath) packageName]
    else []) ++
    (if config.exclusive then
      [newExclusiveMsg envVar (relTo seen.packageJsonPath) packageName]
    else [])

/-- The loop body of `addEnvConfigForPackage`: accumulates
`nextSeenVars`, `nextErrors` and `nextNormalizedEnvVars` over the
entries, always reading the pre-call `seenVars`. -/
def processExportedEnv (seenVars : List (String × SeenVarEntry))
    (relTo : String → String) (packageName packageJsonFilePath : String) :
    List (String × EnvVarExport) →
      List (String × SeenVarEntry) × List String × List EnvironmentVar
  | [] => ([], [], [])
  | (envVar, config) :: rest =>
    let (ns, ne, nv) :=
      processExportedEnv seenVars relTo packageName packageJsonFilePath rest
    ((envVar,
        ⟨if packageJsonFilePath = "" then "unknownPackage"
          else packageJsonFilePath, config⟩) :: ns,
      errorsForEntry seenVars relTo packageName envVar config ++ ne,
      ⟨envVar, config.val, config.builtInDoNotUse⟩ :: nv)

/-- JavaScript object spread of the new seen-variables over the old; with
lookup-first association lists, prepending makes the new entries shadow
the old ones. -/
def overrideSeen (old nw : List (String × SeenVarEntry)) :
    List (String × SeenVarEntry) :=
  nw ++ old

def addEnvConfigForPackage (relTo : String → String)
    (state : EnvironmentConfigState) (packageName packageJsonFilePath : String)
    (exportedEnv : List (String × EnvVarExport)) : EnvironmentConfigState :=
  let (ns, ne, nv) :=
    processExportedEnv state.seenVars relTo packageName packageJsonFilePath
      exportedEnv
  { errors := state.errors ++ ne,
    seenVars := overrideSeen state.seenVars ns,
    normalizedEnvVars := state.normalizedEnvVars ++ nv }

lemma revTakeTwo_append (a lit : String) (h : 2 ≤ lit.data.length) :
    ((a ++ lit).data.reverse.take 2) = lit.data.reverse.take 2 := by
  rw [String.data_append, List.reverse_append, List.take_append_eq_append_take]
  have : 2 - lit.data.reverse.length = 0 := by
    simp only [List.length_reverse]
    omega
  rw [this, List.take_zero, List.append_nil]

lemma string_ne_of_revTakeTwo {x y : String}
    (hx : x.data.reverse.take 2 = ['.', 't'])
    (hy : y.data.reverse.take 2 = ['.', 's']) : x ≠ y := by
  intro h
  rw [h, hy] at hx
  exact absurd (List.cons.inj hx).2 (by decide)

lemma overrideExclusiveMsg_revTakeTwo (b : Bool) (v r p : String) :
    (overrideExclusiveMsg b v r p).data.reverse.take 2 = ['.', 't'] := by
  unfold overrideExclusiveMsg
  rw [revTakeTwo_append _ _ (by decide)]
  decide

lemma newExclusiveMsg_revTakeTwo (v r p : String) :
    (newExclusiveMsg v r p).data.reverse.take 2 = ['.', 's'] := by
  unfold newExclusiveMsg
  rw [revTakeTwo_append _ _ (by decide)]
  decide

lemma processExportedEnv_errors (seenVars : List (String × SeenVarEntry))
    (relTo : String → String) (packageName packageJsonFilePath : String)
    (l : List (String × EnvVarExport)) :
    (processExportedEnv seenVars relTo packageName packageJsonFilePath l).2.1 =
      (l.map fun e =>
        errorsForEntry seenVars relTo packageName e.1 e.2).flatten := by
  induction l with
  | nil => rfl
  | cons e rest ih =>
    obtain ⟨envVar, config⟩ := e
    simp [processExportedEnv, ih]

/-- C7: when the incumbent `seenVars` entry for a variable has
`exclusive=true` and the newly added descriptor is also `exclusive=true`,
the entry contributes exactly two diagnostics — the incumbent-exclusive
message and the new-exclusive message, in that order — which are distinct
strings for all inputs; the first carries the `Built-in variable ` prefix
exactly when the incumbent was built-in; and `addEnvConfigForPackage`
emits precisely the per-entry diagnostics appended to the prior errors. -/
theorem C7_double_exclusive_diagnostics (relTo : String → String)
    (seenVars : List (String × SeenVarEntry)) (packageName envVar : String)
    (config : EnvVarExport) (seen : SeenVarEntry)
    (hseen : seenVars.lookup envVar = some seen)
    (hex1 : seen.config.exclusive = true) (hex2 : config.exclusive = true) :
    errorsForEntry seenVars relTo packageName envVar config =
      [overrideExclusiveMsg seen.config.builtInDoNotUse envVar
          (relTo seen.packageJsonPath) packageName,
        newExclusiveMsg envVar (relTo seen.packageJsonPath) packageName]
    ∧ overrideExclusiveMsg seen.config.builtInDoNotUse envVar
        (relTo seen.packageJsonPath) packageName ≠
        newExclusiveMsg envVar (relTo seen.packageJsonPath) packageName
    ∧ overrideExclusiveMsg true envVar (relTo seen.packageJsonPath) packageName
        = "Built-in variable " ++ overrideExclusiveMsg false envVar
            (relTo seen.packageJsonPath) packageName
    ∧ ∀ (state : EnvironmentConfigState) (pkgJsonPath : String)
        (exportedEnv : List (String × EnvVarExport)),
        (addEnvConfigForPackage relTo state packageName pkgJsonPath
            exportedEnv).errors =
          state.errors ++ (exportedEnv.map fun e =>
            errorsForEntry state.seenVars relTo packageName e.1 e.2).flatten := by
  refine ⟨?_, ?_, ?_, ?_⟩
  · simp [errorsForEntry, hseen, hex1, hex2]
  · exact string_ne_of_revTakeTwo
      (overrideExclusiveMsg_revTakeTwo _ _ _ _)
      (newExclusiveMsg_revTakeTwo _ _ _)
  · simp [overrideExclusiveMsg, String.append_assoc]
  · intro state pkgJsonPath exportedEnv
    simp [addEnvConfigForPackage, processExportedEnv_errors]

def cexSeenEntry : SeenVarEntry := ⟨"p/package.json", ⟨some "x", false, true⟩⟩

def cexSeenVars : List (String × SeenVarEntry) := [("V", cexSeenEntry)]

def cexNewConfig : EnvVarExport := ⟨some "y", false, true⟩

theorem C7_double_exclusive_diagnostics_witness :
    (cexSeenVars.lookup "V" = some cexSeenEntry
      ∧ cexSeenEntry.config.exclusive = true ∧ cexNewConfig.exclusive = true)
    ∧ errorsForEntry cexSeenVars id "consumer" "V" cexNewConfig =
      [overrideExclusiveMsg cexSeenEntry.config.builtInDoNotUse "V"
          (id cexSeenEntry.packageJsonPath) "consumer",
        newExclusiveMsg "V" (id cexSeenEntry.packageJsonPath) "consumer"]
    ∧ overrideExclusiveMsg cexSeenEntry.config.builtInDoNotUse "V"
        (id cexSeenEntry.packageJsonPath) "consumer" ≠
        newExclusiveMsg "V" (id cexSeenEntry.packageJsonPath) "consumer" := by
  have h := C7_double_exclusive_diagnostics id cexSeenVars "consumer" "V"
    cexNewConfig cexSeenEntry (by decide) (by decide) (by decide)
  exact ⟨⟨by decide, by decide, by decide⟩, h.1, h.2.1⟩

/-! ## Source mtime checksum (lib/fs.js, calculateMtimeChecksum)

The walkdir traversal emits every path under the directory; an ignored
path stops the descent below it (its own entry, when a file, is still
recorded, as in the source); for each file the modification time is
stored, as a string, in a map keyed by the full path. The file names are
then sorted and only the mtime strings are fed, in that order, to SHA-1.
JavaScript's array sort on strings is modelled by an insertion sort over
the `≤` order on `String`. -/

/-- A concrete digest function used to instantiate the abstract SHA-1
parameter in witnesses. -/
def idString (s : String) : String := s

inductive FSTree where
  | file (mtimeMs : Int) (content : String)
  | dir (entries : List (String × FSTree))

def walkEntries (ignore : String → Bool) :
    String → List (String × FSTree) → List (String × Int)
  | _, [] => []
  | base, (nm, .file mt _) :: rest =>
    (base ++ "/" ++ nm, mt) :: walkEntries ignore base rest
  | base, (nm, .dir es) :: rest =>
    (if ignore (base ++ "/" ++ nm) then []
     else walkEntries ignore (base ++ "/" ++ nm) es)
      ++ walkEntries ignore base rest

def walkFiles (ignore : String → Bool) (base : String) : FSTree → List (String × Int)
  | .file _ _ => []
  | .dir es => walkEntries ignore base es

/-- JavaScript `Map.prototype.set`: replace in place, else append. -/
def setKV : List (String × String) → String → String → List (String × String)
  | [], k, v => [(k, v)]
  | (k', v') :: t, k, v =>
    if k' = k then (k', v) :: t else (k', v') :: setKV t k v

def mtimesMap (ws : List (String × Int)) : List (String × String) :=
  ws.foldl (fun m kv => setKV m kv.1 (toString kv.2)) []

def insertSortedString (x : String) : List String → List String
  | [] => [x]
  | y :: t => if x ≤ y then x :: y :: t else y :: insertSortedString x t

/-- The `filenames.sort()` step. -/
def sortStrings : List String → List String
  | [] => []
  | x :: t => insertSortedString x (sortStrings t)

/-- The sequence of strings fed to the hash: the stored mtime strings in
path-sorted order (a missing lookup feeds the empty string, mirroring
`mtimes.get(filename) || ''`). -/
def mtimeSequence (ignore : String → Bool) (base : String) (t : FSTree) :
    List String :=
  let m := mtimesMap (walkFiles ignore base t)
  (sortStrings (m.map Prod.fst)).map fun n => (m.lookup n).getD ""

def calculateMtimeChecksum (sha1 : String → String) (ignore : String → Bool)
    (base : String) (t : FSTree) : String :=
  sha1 (String.join (mtimeSequence ignore base t))

/-- C10: the checksum is SHA-1 of exactly the path-sorted mtime strings —
file names and file contents never enter the hash — so any two trees
(under any ignore predicates and walk roots) whose path-sorted mtime
sequences agree produce the identical checksum. -/
theorem C10_checksum_reads_only_sorted_mtimes (sha1 : String → String)
    (ig1 ig2 : String → Bool) (b1 b2 : String) (t1 t2 : FSTree)
    (h : mtimeSequence ig1 b1 t1 = mtimeSequence ig2 b2 t2) :
    calculateMtimeChecksum sha1 ig1 b1 t1 = calculateMtimeChecksum sha1 ig2 b2 t2
    ∧ calculateMtimeChecksum sha1 ig1 b1 t1 =
        sha1 (String.join (mtimeSequence ig1 b1 t1)) := by
  unfold calculateMtimeChecksum
  rw [h]
  exact ⟨rfl, rfl⟩

theorem C10_checksum_reads_only_sorted_mtimes_witness :
    mtimeSequence (fun _ => false) "/src"
        (.dir [("a.txt", .file 100 "hello"), ("sub", .dir [("c", .file 7 "x")])]) =
      mtimeSequence (fun _ => false) "/src"
        (.dir [("renamed.txt", .file 100 "other"), ("zub", .dir [("c", .file 7 "y")])])
    ∧ calculateMtimeChecksum Esy.idString (fun _ => false) "/src"
        (.dir [("a.txt", .file 100 "hello"), ("sub", .dir [("c", .file 7 "x")])]) =
      calculateMtimeChecksum Esy.idString (fun _ => false) "/src"
        (.dir [("renamed.txt", .file 100 "other"), ("zub", .dir [("c", .file 7 "y")])]) := by
  constructor
  · simp [mtimeSequence, mtimesMap, walkFiles, walkEntries, setKV, sortStrings,
      insertSortedString]
    decide
  · exact (C10_checksum_reads_only_sorted_mtimes Esy.idString _ _ _ _ _ _
      (by
        simp [mtimeSequence, mtimesMap, walkFiles, walkEntries, setKV,
          sortStrings, insertSortedString]
        decide)).1

/-! ## Post-install path rewriting (builders/util.js, rewritePathInFile)

The source reads the file into a buffer, looks for `origPath`, and while
an occurrence is found overwrites it in place with `destPath` and
re-searches from the start; `fs.writeFile` runs only when the first search
found an occurrence. Buffers are byte lists here; `Buffer.write` truncates
at the end of the buffer. The unbounded `while` loop is modelled with an
explicit fuel parameter; the completion flag records that the loop reached
its exit condition (no occurrence left) rather than exhausting fuel, and
the fuel `content.length` is proven sufficient whenever `origPath` and
`destPath` have equal length but different character counts, which holds
for the builder's `_insttmp` versus `_install` store paths. -/

/-- `Buffer.indexOf`: position of the first occurrence of `pat`. -/
def indexOfSub (pat : List Char) : List Char → Option Nat
  | [] => if pat = [] then some 0 else none
  | c :: t =>
    if pat.isPrefixOf (c :: t) then some 0
    else (indexOfSub pat t).map (· + 1)

/-- `Buffer.write(dest, p)`: overwrite in place starting at `p`, writing
at most up to the end of the buffer. -/
def writeAt (p : Nat) (dest c : List Char) : List Char :=
  c.take p ++ dest.take (c.length - p) ++ c.drop (p + min dest.length (c.length - p))

/-- The source's while loop, entered with a found occurrence position. -/
def rewriteLoop (orig dest : List Char) : Nat → Nat → List Char → List Char × Bool
  | fuel, p, c =>
    match indexOfSub orig (writeAt p dest c), fuel with
    | none, _ => (writeAt p dest c, true)
    | some _, 0 => (writeAt p dest c, false)
    | some p', fuel' + 1 => rewriteLoop orig dest fuel' p' (writeAt p dest c)

/-- `rewritePathInFile` on a file's contents: `none` means no
`fs.writeFile` was issued and the file on disk is untouched; `some`
carries the bytes written and the loop's completion flag. -/
def rewritePathInFile (isFile : Bool) (content orig dest : List Char)
    (fuel : Nat) : Option (List Char × Bool) :=
  if !isFile then none
  else
    match indexOfSub orig content with
    | none => none
    | some p => some (rewriteLoop orig dest fuel p content)

lemma indexOfSub_eq_some {pat c : List Char} {p : Nat}
    (h : indexOfSub pat c = some p) :
    ∃ a b, c = a ++ pat ++ b ∧ a.length = p := by
  induction c generalizing p with
  | nil =>
    unfold indexOfSub at h
    split at h
    · rename_i hp
      refine ⟨[], [], by simp [hp], ?_⟩
      simpa using Option.some.inj h
    · exact absurd h (by simp)
  | cons x t ih =>
    unfold indexOfSub at h
    split at h
    · rename_i hp
      obtain ⟨b, hb⟩ := List.isPrefixOf_iff_prefix.1 hp
      refine ⟨[], b, by simp [hb], ?_⟩
      simpa using Option.some.inj h
    · simp only [Option.map_eq_some'] at h
      obtain ⟨q, hq, rfl⟩ := h
      obtain ⟨a, b, hc, ha⟩ := ih hq
      exact ⟨x :: a, b, by simp [hc], by simp [ha]⟩

lemma indexOfSub_append_ne_none (pat a b : List Char) :
    indexOfSub pat (a ++ pat ++ b) ≠ none := by
  induction a with
  | nil =>
    show indexOfSub pat ([] ++ pat ++ b) ≠ none
    rw [List.nil_append]
    cases hpb : pat ++ b with
    | nil =>
      rcases List.append_eq_nil.1 hpb with ⟨h1, h2⟩
      subst h1; subst h2
      simp [indexOfSub]
    | cons y u =>
      have hpfx : pat.isPrefixOf (y :: u) = true :=
        List.isPrefixOf_iff_prefix.2 ⟨b, hpb⟩
      simp [indexOfSub, hpfx]
  | cons x a ih =>
    show indexOfSub pat (x :: (a ++ pat ++ b)) ≠ none
    unfold indexOfSub
    split
    · simp
    · simpa using ih

lemma writeAt_occurrence {orig dest : List Char} (a b : List Char)
    (hlen : orig.length = dest.length) :
    writeAt a.length dest (a ++ orig ++ b) = a ++ dest ++ b := by
  have hlen3 : (a ++ orig ++ b).length = a.length + orig.length + b.length := by
    simp [List.length_append]
    omega
  have hsub : (a ++ orig ++ b).length - a.length = orig.length + b.length := by
    omega
  have htk : dest.take ((a ++ orig ++ b).length - a.length) = dest := by
    rw [hsub]
    exact List.take_of_length_le (by omega)
  have hmin : min dest.length ((a ++ orig ++ b).length - a.length) = dest.length := by
    rw [hsub]; omega
  have htake : (a ++ orig ++ b).take a.length = a := by
    rw [List.append_assoc]
    exact List.take_left a (orig ++ b)
  have hdrop : (a ++ orig ++ b).drop (a.length + dest.length) = b := by
    rw [← hlen, ← List.length_append a orig]
    exact List.drop_left (a ++ orig) b
  unfold writeAt
  rw [htk, hmin, htake, hdrop]

lemma rewriteLoop_completed (orig dest : List Char) :
    ∀ (fuel p : Nat) (c res : List Char),
      rewriteLoop orig dest fuel p c = (res, true) →
      indexOfSub orig res = none := by
  intro fuel
  induction fuel with
  | zero =>
    intro p c res h
    unfold rewriteLoop at h
    cases hidx : indexOfSub orig (writeAt p dest c) with
    | none => rw [hidx] at h; exact (Prod.mk.inj h).1 ▸ hidx
    | some q => rw [hidx] at h; exact absurd (Prod.mk.inj h).2 (by simp)
  | succ n ih =>
    intro p c res h
    unfold rewriteLoop at h
    cases hidx : indexOfSub orig (writeAt p dest c) with
    | none => rw [hidx] at h; exact (Prod.mk.inj h).1 ▸ hidx
    | some q => rw [hidx] at h; exact ih q (writeAt p dest c) res h

lemma count_writeAt_occurrence {orig dest : List Char} (a b : List Char)
    (hlen : orig.length = dest.length) (ch : Char) :
    (writeAt a.length dest (a ++ orig ++ b)).count ch + orig.count ch =
      (a ++ orig ++ b).count ch + dest.count ch := by
  rw [writeAt_occurrence a b hlen]
  simp [List.count_append]
  omega

lemma rewriteLoop_fuel_sufficient (orig dest : List Char) (ch : Char)
    (hlen : orig.length = dest.length) (hd : orig.count ch < dest.count ch) :
    ∀ (fuel : Nat) (c : List Char) (p : Nat),
      indexOfSub orig c = some p →
      c.length - c.count ch ≤ fuel →
      (rewriteLoop orig dest fuel p c).2 = true := by
  intro fuel
  induction fuel with
  | zero =>
    intro c p hidx hfuel
    exfalso
    obtain ⟨a, b, rfl, rfl⟩ := indexOfSub_eq_some hidx
    have hcl : (a ++ orig ++ b).count ch ≤ (a ++ orig ++ b).length :=
      List.count_le_length ch _
    have hcc : (a ++ orig ++ b).count ch = (a ++ orig ++ b).length := by
      omega
    have hall : ∀ x ∈ a ++ orig ++ b, ch = x := (List.count_eq_length).1 hcc
    have horig : orig.count ch = orig.length := by
      refine (List.count_eq_length).2 fun x hx => ?_
      exact hall x (by simp [hx])
    have : dest.count ch ≤ dest.length := List.count_le_length ch dest
    omega
  | succ n ih =>
    intro c p hidx hfuel
    obtain ⟨a, b, rfl, rfl⟩ := indexOfSub_eq_some hidx
    unfold rewriteLoop
    cases hidx2 : indexOfSub orig (writeAt a.length dest (a ++ orig ++ b)) with
    | none => simp
    | some p' =>
      simp only []
      have hw := @writeAt_occurrence orig dest a b hlen
      have hcount := count_writeAt_occurrence a b hlen ch
      have hlen2 : (writeAt a.length dest (a ++ orig ++ b)).length =
          (a ++ orig ++ b).length := by
        rw [hw]; simp [List.length_append]; omega
      have hcl : (writeAt a.length dest (a ++ orig ++ b)).count ch ≤
          (writeAt a.length dest (a ++ orig ++ b)).length :=
        List.count_le_length ch _
      exact ih (writeAt a.length dest (a ++ orig ++ b)) p' hidx2 (by omega)

/-- C9: `rewritePathInFile` issues no write at all when the contents
contain no occurrence of `origPath` — the file on disk stays byte-for-byte
unchanged — and issues a write exactly when an occurrence was found; when
the rewrite loop completes, the written contents contain no occurrence of
`origPath` (every occurrence was overwritten with `destPath`), and fuel
`content.length` always suffices when `origPath` and `destPath` have equal
length but a differing character count, as `_insttmp`/`_install` do. -/
theorem C9_rewritePathInFile_frame :
    (∀ (isFile : Bool) (content orig dest : List Char) (fuel : Nat),
        indexOfSub orig content = none →
        rewritePathInFile isFile content orig dest fuel = none)
    ∧ (∀ (content orig dest : List Char) (fuel : Nat),
        rewritePathInFile true content orig dest fuel ≠ none ↔
          indexOfSub orig content ≠ none)
    ∧ (∀ (orig dest : List Char) (fuel p : Nat) (c res : List Char),
        rewriteLoop orig dest fuel p c = (res, true) →
        ∀ a b : List Char, res ≠ a ++ orig ++ b)
    ∧ (∀ (orig dest : List Char) (ch : Char) (content : List Char) (p : Nat),
        orig.length = dest.length → orig.count ch < dest.count ch →
        indexOfSub orig content = some p →
        (rewriteLoop orig dest content.length p content).2 = true) := by
  refine ⟨?_, ?_, ?_, ?_⟩
  · intro isFile content orig dest fuel h
    cases isFile <;> simp [rewritePathInFile, h]
  · intro content orig dest fuel
    cases h : indexOfSub orig content <;>
      simp [rewritePathInFile, h]
  · intro orig dest fuel p c res h a b hres
    have := rewriteLoop_completed orig dest fuel p c res h
    rw [hres] at this
    exact indexOfSub_append_ne_none orig a b this
  · intro orig dest ch content p hlen hd hidx
    exact rewriteLoop_fuel_sufficient orig dest ch hlen hd content.length
      content p hidx (by omega)

theorem C9_rewritePathInFile_frame_witness :
    (indexOfSub "_insttmp".toList "no occurrence here".toList = none ∧
      rewritePathInFile true "no occurrence here".toList "_insttmp".toList
        "_install".toList 18 = none)
    ∧ (("_insttmp".toList.length = "_install".toList.length ∧
        "_insttmp".toList.count 'l' < "_install".toList.count 'l' ∧
        indexOfSub "_insttmp".toList "x/_insttmp/id/_insttmp".toList = some 2) ∧
      (rewriteLoop "_insttmp".toList "_install".toList
        "x/_insttmp/id/_insttmp".toList.length 2
        "x/_insttmp/id/_insttmp".toList).2 = true) := by
  refine ⟨⟨by decide, ?_⟩, ⟨by decide, by decide, by decide⟩, ?_⟩
  · exact C9_rewritePathInFile_frame.1 true _ _ "_install".toList 18 (by decide)
  · exact C9_rewritePathInFile_frame.2.2.2 "_insttmp".toList "_install".toList
      'l' "x/_insttmp/id/_insttmp".toList 2 (by decide) (by decide) (by decide)

/-! ## Build-id hashing (build-sandbox.js, hash and calculateBuildId)

`hash` canonicalizes a JSON-like value: objects are hashed as the
key-sorted array of `[key, value]` pairs, arrays as the SHA-1 of the
JSON text of their members' hashes, primitives as the SHA-1 of their
JSON text. `JVal` is the JSON-like data; objects carry their fields in
iteration order as an association list. The `undefined` branch is not
representable (manifest data is JSON). JavaScript's `keys.sort()`
followed by `keys.map(k => [k, v[k]])` is modelled by an insertion sort
of the field list on the key, which coincides for the duplicate-free
keys a JavaScript object iteration delivers; well-formedness (`jwf`)
states that key uniqueness. -/

inductive JVal where
  | str (s : String)
  | num (n : Int)
  | bool (b : Bool)
  | null
  | arr (xs : List JVal)
  | obj (fields : List (String × JVal))

/-- JSON.stringify of a string: quote and escape. -/
def jsonQuoteChar (c : Char) : List Char :=
  if c = '"' then ['\\', '"']
  else if c = '\\' then ['\\', '\\']
  else if c = '\n' then ['\\', 'n']
  else if c = '\r' then ['\\', 'r']
  else if c = '\t' then ['\\', 't']
  else [c]

def jsonQuote (s : String) : String :=
  "\"" ++ String.mk (s.data.map jsonQuoteChar).flatten ++ "\""

/-- JSON.stringify of an array of strings. -/
def stringifyStrList (xs : List String) : String :=
  "[" ++ String.intercalate "," (xs.map jsonQuote) ++ "]"

mutual

def jsize : JVal → Nat
  | .str _ => 1
  | .num _ => 1
  | .bool _ => 1
  | .null => 1
  | .arr xs => 1 + jsizeList xs
  | .obj fs => 1 + jsizeFields fs

def jsizeList : List JVal → Nat
  | [] => 0
  | x :: t => jsize x + 1 + jsizeList t

def jsizeFields : List (String × JVal) → Nat
  | [] => 0
  | (_, v) :: t => jsize v + 6 + jsizeFields t

end

def insertFieldByKey (p : String × JVal) :
    List (String × JVal) → List (String × JVal)
  | [] => [p]
  | q :: t => if p.1 ≤ q.1 then p :: q :: t else q :: insertFieldByKey p t

/-- The `keys.sort()` step of `hash`, carried out on the field list. -/
def sortFieldsByKey : List (String × JVal) → List (String × JVal)
  | [] => []
  | p :: t => insertFieldByKey p (sortFieldsByKey t)

lemma jsizeFields_insertFieldByKey (p : String × JVal) :
    ∀ t, jsizeFields (insertFieldByKey p t) = jsize p.2 + 6 + jsizeFields t := by
  intro t
  induction t with
  | nil => obtain ⟨k, v⟩ := p; rfl
  | cons q u ih =>
    obtain ⟨k, v⟩ := p
    obtain ⟨k', v'⟩ := q
    by_cases h : k ≤ k'
    · simp [insertFieldByKey, h, jsizeFields]
    · simp [insertFieldByKey, h, jsizeFields] at ih ⊢
      omega

lemma jsizeFields_sortFieldsByKey :
    ∀ l, jsizeFields (sortFieldsByKey l) = jsizeFields l := by
  intro l
  induction l with
  | nil => rfl
  | cons p t ih =>
    obtain ⟨k, v⟩ := p
    simp [sortFieldsByKey, jsizeFields_insertFieldByKey, ih, jsizeFields]

mutual

/-- The `hash` function of build-sandbox.js, parameterized by the SHA-1
primitive. A string hashes to SHA-1 of its JSON text; an object hashes as
the array of `[key, value]` pair arrays in sorted key order; arrays hash
the JSON text of the member hashes (the nested `hash(JSON.stringify(...))`
call on a string is inlined as `sha1 ∘ jsonQuote`). -/
def jhash (sha1 : String → String) : JVal → String
  | .str s => sha1 (jsonQuote s)
  | .num n => sha1 (toString n)
  | .bool b => sha1 (if b then "true" else "false")
  | .null => sha1 (jsonQuote "null")
  | .arr xs => sha1 (jsonQuote (stringifyStrList (jhashList sha1 xs)))
  | .obj fs =>
    sha1 (jsonQuote (stringifyStrList (jhashPairs sha1 (sortFieldsByKey fs))))
termination_by v => jsize v
decreasing_by
  all_goals simp [jsize, jsizeList, jsizeFields, jsizeFields_sortFieldsByKey]

def jhashList (sha1 : String → String) : List JVal → List String
  | [] => []
  | x :: t => jhash sha1 x :: jhashList sha1 t
termination_by l => jsizeList l
decreasing_by
  all_goals simp [jsize, jsizeList]
  all_goals omega

/-- Hashing of one `[key, value]` pair array. -/
def jhashPairs (sha1 : String → String) : List (String × JVal) → List String
  | [] => []
  | (k, v) :: t =>
    sha1 (jsonQuote (stringifyStrList [jhash sha1 (.str k), jhash sha1 v]))
      :: jhashPairs sha1 t
termination_by l => jsizeFields l
decreasing_by
  all_goals simp [jsize, jsizeFields]
  all_goals omega

end

mutual

/-- Well-formedness of a JSON value: every object level has
duplicate-free keys, as JavaScript object iteration guarantees. -/
def jwf : JVal → Bool
  | .str _ => true
  | .num _ => true
  | .bool _ => true
  | .null => true
  | .arr xs => jwfList xs
  | .obj fs => decide ((fs.map Prod.fst).Nodup) && jwfFields fs

def jwfList : List JVal → Bool
  | [] => true
  | x :: t => jwf x && jwfList t

def jwfFields : List (String × JVal) → Bool
  | [] => true
  | (_, v) :: t => jwf v && jwfFields t

end

/-- Two JSON values that differ only in the iteration order of object
fields: objects must have pointwise equal keys and related values after
which the field list may be permuted; everything else must match
structurally. -/
inductive PermEq : JVal → JVal → Prop where
  | str (s : String) : PermEq (.str s) (.str s)
  | num (n : Int) : PermEq (.num n) (.num n)
  | bool (b : Bool) : PermEq (.bool b) (.bool b)
  | null : PermEq .null .null
  | arr {xs ys : List JVal} :
      List.Forall₂ PermEq xs ys → PermEq (.arr xs) (.arr ys)
  | obj {fs hs gs : List (String × JVal)} :
      fs.map Prod.fst = hs.map Prod.fst →
      List.Forall₂ PermEq (fs.map Prod.snd) (hs.map Prod.snd) →
      hs.Perm gs → PermEq (.obj fs) (.obj gs)

/-- Pointwise `PermEq` on array members. -/
abbrev PermEqList (xs ys : List JVal) : Prop := List.Forall₂ PermEq xs ys

/-- Pointwise relation on field lists: equal keys, `PermEq` values. -/
def PermEqFields (fs hs : List (String × JVal)) : Prop :=
  fs.map Prod.fst = hs.map Prod.fst ∧
    List.Forall₂ PermEq (fs.map Prod.snd) (hs.map Prod.snd)

lemma permEqFields_nil : PermEqFields [] [] := ⟨rfl, List.Forall₂.nil⟩

lemma permEqFields_cons {k : String} {v w : JVal}
    {t u : List (String × JVal)} :
    PermEqFields ((k, v) :: t) ((k, w) :: u) ↔ PermEq v w ∧ PermEqFields t u := by
  simp [PermEqFields, List.forall₂_cons, and_assoc, and_left_comm]

lemma jsize_pos (v : JVal) : 1 ≤ jsize v := by
  cases v <;> simp [jsize]

lemma permEq_refl_sized : ∀ (n : Nat) (v : JVal), jsize v ≤ n → PermEq v v := by
  intro n
  induction n with
  | zero =>
    intro v h
    exact absurd h (by have := jsize_pos v; omega)
  | succ n ih =>
    intro v hsz
    cases v with
    | str s => exact .str s
    | num m => exact .num m
    | bool b => exact .bool b
    | null => exact .null
    | arr xs =>
      refine .arr ?_
      simp only [jsize] at hsz
      have hl : jsizeList xs ≤ n := by omega
      clear hsz
      induction xs with
      | nil => exact List.Forall₂.nil
      | cons x t iht =>
        simp only [jsizeList] at hl
        exact List.Forall₂.cons (ih x (by omega)) (iht (by omega))
    | obj fs =>
      refine .obj rfl ?_ (List.Perm.refl fs)
      simp only [jsize] at hsz
      have hl : jsizeFields fs ≤ n := by omega
      clear hsz
      induction fs with
      | nil => exact List.Forall₂.nil
      | cons p t iht =>
        obtain ⟨k, v⟩ := p
        simp only [jsizeFields] at hl
        simp only [List.map_cons]
        exact List.Forall₂.cons (ih v (by omega)) (iht (by omega))

/-- Structural reflexivity of `PermEq`. -/
lemma permEq_refl (v : JVal) : PermEq v v :=
  permEq_refl_sized (jsize v) v (Nat.le_refl _)

/-- The key order used by the field sort. -/
def fieldLe (p q : String × JVal) : Prop := p.1 ≤ q.1

lemma insertFieldByKey_perm (p : String × JVal) :
    ∀ t, List.Perm (insertFieldByKey p t) (p :: t) := by
  intro t
  induction t with
  | nil => exact List.Perm.refl _
  | cons q u ih =>
    by_cases h : p.1 ≤ q.1
    · simp [insertFieldByKey, h]
    · simp only [insertFieldByKey, if_neg h]
      exact (ih.cons q).trans (List.Perm.swap p q u)

lemma sortFieldsByKey_perm : ∀ l, List.Perm (sortFieldsByKey l) l := by
  intro l
  induction l with
  | nil => exact List.Perm.refl _
  | cons p t ih =>
    exact (insertFieldByKey_perm p (sortFieldsByKey t)).trans (ih.cons p)

lemma insertFieldByKey_pairwise {p : String × JVal} {t : List (String × JVal)}
    (h : t.Pairwise fieldLe) : (insertFieldByKey p t).Pairwise fieldLe := by
  induction t with
  | nil => simp [insertFieldByKey]
  | cons q u ih =>
    by_cases hle : p.1 ≤ q.1
    · simp only [insertFieldByKey, if_pos hle]
      refine List.Pairwise.cons ?_ h
      intro r hr
      rcases List.mem_cons.1 hr with rfl | hr
      · exact hle
      · exact le_trans hle ((List.pairwise_cons.1 h).1 r hr)
    · simp only [insertFieldByKey, if_neg hle]
      have hq : q.1 ≤ p.1 := le_of_not_le hle
      refine List.Pairwise.cons ?_ (ih (List.pairwise_cons.1 h).2)
      intro r hr
      have hmem : r ∈ p :: u := (insertFieldByKey_perm p u).mem_iff.1 hr
      rcases List.mem_cons.1 hmem with rfl | hr2
      · exact hq
      · exact (List.pairwise_cons.1 h).1 r hr2

lemma sortFieldsByKey_pairwise : ∀ l, (sortFieldsByKey l).Pairwise fieldLe := by
  intro l
  induction l with
  | nil => simp [sortFieldsByKey]
  | cons p t ih => exact insertFieldByKey_pairwise ih

lemma lookup_cons_self {k : String} {v : JVal} {t : List (String × JVal)} :
    List.lookup k ((k, v) :: t) = some v := by
  simp [List.lookup]

lemma lookup_cons_ne {a k : String} {v : JVal} {t : List (String × JVal)}
    (h : a ≠ k) : List.lookup a ((k, v) :: t) = List.lookup a t := by
  have hb : (a == k) = false := beq_eq_false_iff_ne.2 h
  simp [List.lookup, hb]

lemma lookup_eq_of_perm {l₁ l₂ : List (String × JVal)}
    (h : List.Perm l₁ l₂) :
    (l₁.map Prod.fst).Nodup → ∀ k, l₁.lookup k = l₂.lookup k := by
  induction h with
  | nil => intro _ _; rfl
  | cons x h ih =>
    intro nd k
    obtain ⟨kx, vx⟩ := x
    simp only [List.map_cons, List.nodup_cons] at nd
    by_cases hk : k = kx
    · subst hk; rw [lookup_cons_self, lookup_cons_self]
    · rw [lookup_cons_ne hk, lookup_cons_ne hk]
      exact ih nd.2 k
  | swap x y l =>
    intro nd k
    obtain ⟨kx, vx⟩ := x
    obtain ⟨ky, vy⟩ := y
    simp only [List.map_cons, List.nodup_cons, List.mem_cons] at nd
    have hxy : ky ≠ kx := fun hcontr => nd.1 (Or.inl hcontr)
    by_cases h1 : k = ky
    · subst h1
      rw [lookup_cons_self, lookup_cons_ne hxy, lookup_cons_self]
    · rw [lookup_cons_ne h1]
      by_cases h2 : k = kx
      · subst h2
        rw [lookup_cons_self, lookup_cons_self]
      · rw [lookup_cons_ne h2, lookup_cons_ne h2, lookup_cons_ne h1]
  | trans h1 h2 ih1 ih2 =>
    intro nd k
    refine (ih1 nd k).trans (ih2 ?_ k)
    exact ((h1.map Prod.fst).nodup_iff).1 nd

lemma lookup_of_mem_nodup {l : List (String × JVal)}
    (nd : (l.map Prod.fst).Nodup) {k : String} {v : JVal}
    (hm : (k, v) ∈ l) : l.lookup k = some v := by
  induction l with
  | nil => cases hm
  | cons q t ih =>
    obtain ⟨k2, v2⟩ := q
    simp only [List.map_cons, List.nodup_cons] at nd
    rcases List.mem_cons.1 hm with heq | htail
    · obtain ⟨rfl, rfl⟩ := Prod.mk.inj heq
      exact lookup_cons_self
    · have hk : k ≠ k2 := by
        intro hcontr
        subst hcontr
        exact nd.1 (List.mem_map.2 ⟨(k, v), htail, rfl⟩)
      rw [lookup_cons_ne hk]
      exact ih nd.2 htail

lemma permEqFields_lookup {fs : List (String × JVal)} :
    ∀ {hs}, PermEqFields fs hs → ∀ k,
      (fs.lookup k = none ∧ hs.lookup k = none)
      ∨ ∃ v w, fs.lookup k = some v ∧ hs.lookup k = some w ∧ PermEq v w := by
  induction fs with
  | nil =>
    intro hs h k
    obtain ⟨hk, -⟩ := h
    have : hs = [] := by
      cases hs with
      | nil => rfl
      | cons q u => simp at hk
    subst this
    exact Or.inl ⟨rfl, rfl⟩
  | cons p t ih =>
    intro hs h k
    obtain ⟨ka, va⟩ := p
    cases hs with
    | nil => obtain ⟨hk, -⟩ := h; simp at hk
    | cons q u =>
      obtain ⟨kb, vb⟩ := q
      obtain ⟨hk, hv⟩ := h
      simp only [List.map_cons, List.cons.injEq] at hk hv
      obtain ⟨rfl, hk2⟩ := hk
      rcases List.forall₂_cons.1 hv with ⟨hvw, hrest⟩
      by_cases hka : k = ka
      · subst hka
        exact Or.inr ⟨va, vb, lookup_cons_self, lookup_cons_self, hvw⟩
      · rw [lookup_cons_ne hka, lookup_cons_ne hka]
        exact ih ⟨hk2, hrest⟩ k

lemma permEqFields_of_pointwise :
    ∀ l₁ l₂ : List (String × JVal), l₁.map Prod.fst = l₂.map Prod.fst →
      (∀ k v w, (k, v) ∈ l₁ → (k, w) ∈ l₂ → PermEq v w) →
      PermEqFields l₁ l₂ := by
  intro l₁
  induction l₁ with
  | nil =>
    intro l₂ hk _
    cases l₂ with
    | nil => exact permEqFields_nil
    | cons q u => simp at hk
  | cons p t ih =>
    intro l₂ hk hpt
    cases l₂ with
    | nil => simp at hk
    | cons q u =>
      obtain ⟨k, v⟩ := p
      obtain ⟨k2, w⟩ := q
      simp only [List.map_cons, List.cons.injEq] at hk
      obtain ⟨rfl, hk2⟩ := hk
      refine (permEqFields_cons).2 ⟨hpt k v w (by simp) (by simp), ?_⟩
      exact ih u hk2 fun k3 v3 w3 h3 h4 =>
        hpt k3 v3 w3 (List.mem_cons_of_mem _ h3) (List.mem_cons_of_mem _ h4)

/-- The crux of hash stability: key-sorting respects the
pointwise-then-permute relation between two field lists with
duplicate-free keys. -/
lemma permEqFields_sortFields {fs hs gs : List (String × JVal)}
    (h1 : PermEqFields fs hs) (h2 : List.Perm hs gs)
    (nd : (fs.map Prod.fst).Nodup) :
    PermEqFields (sortFieldsByKey fs) (sortFieldsByKey gs) := by
  have hkeys_fh : fs.map Prod.fst = hs.map Prod.fst := h1.1
  have nd_h : (hs.map Prod.fst).Nodup := hkeys_fh ▸ nd
  have nd_g : (gs.map Prod.fst).Nodup := ((h2.map Prod.fst).nodup_iff).1 nd_h
  have hperm_keys : List.Perm ((sortFieldsByKey fs).map Prod.fst)
      ((sortFieldsByKey gs).map Prod.fst) := by
    refine ((sortFieldsByKey_perm fs).map Prod.fst).trans ?_
    rw [hkeys_fh]
    exact (h2.map Prod.fst).trans ((sortFieldsByKey_perm gs).map Prod.fst).symm
  have hsort1 : ((sortFieldsByKey fs).map Prod.fst).Pairwise
      (fun x y : String => x ≤ y) :=
    List.Pairwise.map Prod.fst (fun a b hab => hab) (sortFieldsByKey_pairwise fs)
  have hsort2 : ((sortFieldsByKey gs).map Prod.fst).Pairwise
      (fun x y : String => x ≤ y) :=
    List.Pairwise.map Prod.fst (fun a b hab => hab) (sortFieldsByKey_pairwise gs)
  have hkeys_eq : (sortFieldsByKey fs).map Prod.fst =
      (sortFieldsByKey gs).map Prod.fst :=
    List.eq_of_perm_of_sorted hperm_keys hsort1 hsort2
  refine permEqFields_of_pointwise _ _ hkeys_eq ?_
  intro k v w hv hw
  have hv2 : (k, v) ∈ fs := (sortFieldsByKey_perm fs).subset hv
  have hw2 : (k, w) ∈ gs := (sortFieldsByKey_perm gs).subset hw
  have hlv : fs.lookup k = some v := lookup_of_mem_nodup nd hv2
  have hlw : gs.lookup k = some w := lookup_of_mem_nodup nd_g hw2
  have hgh : hs.lookup k = gs.lookup k := lookup_eq_of_perm h2 nd_h k
  rcases permEqFields_lookup h1 k with ⟨hn, -⟩ | ⟨v3, w3, hv3, hw3, hpe⟩
  · rw [hlv] at hn; cases hn
  · rw [hlv] at hv3
    rw [hgh, hlw] at hw3
    obtain rfl := Option.some.inj hv3
    obtain rfl := Option.some.inj hw3
    exact hpe

lemma jwfList_eq_true_iff : ∀ l : List JVal,
    jwfList l = true ↔ ∀ x ∈ l, jwf x = true := by
  intro l
  induction l with
  | nil => simp [jwfList]
  | cons x t ih => simp [jwfList, Bool.and_eq_true, ih]

lemma jwfFields_eq_true_iff : ∀ l : List (String × JVal),
    jwfFields l = true ↔ ∀ p ∈ l, jwf p.2 = true := by
  intro l
  induction l with
  | nil => simp [jwfFields]
  | cons p t ih =>
    obtain ⟨k, v⟩ := p
    simp [jwfFields, Bool.and_eq_true, ih]

/-- Hash stability under field-order permutation, proven by strong
induction on the value size. -/
theorem jhash_congr_of_permEq (sha1 : String → String) :
    ∀ (n : Nat) (v w : JVal), jsize v ≤ n → jwf v = true → PermEq v w →
      jhash sha1 v = jhash sha1 w := by
  intro n
  induction n with
  | zero =>
    intro v w h _ _
    exact absurd h (by have := jsize_pos v; omega)
  | succ n ih =>
    intro v w hsz hwf hpe
    cases hpe with
    | str s => rfl
    | num m => rfl
    | bool b => rfl
    | null => rfl
    | arr hlist =>
      rename_i xs ys
      simp only [jsize] at hsz
      simp only [jwf] at hwf
      have hkey : ∀ (as bs : List JVal), List.Forall₂ PermEq as bs →
          jsizeList as ≤ n → jwfList as = true →
          jhashList sha1 as = jhashList sha1 bs := by
        intro as bs hl
        induction hl with
        | nil => intro _ _; rfl
        | cons hxy htail ihl =>
          rename_i x y t u
          intro hsz3 hwf3
          simp only [jsizeList] at hsz3
          simp only [jwfList, Bool.and_eq_true] at hwf3
          simp only [jhashList]
          rw [ih x y (by omega) hwf3.1 hxy, ihl (by omega) hwf3.2]
      simp only [jhash]
      rw [hkey xs ys hlist (by omega) hwf]
    | obj hkeys hvals hperm =>
      rename_i fs hs gs
      simp only [jsize] at hsz
      simp only [jwf, Bool.and_eq_true, decide_eq_true_eq] at hwf
      obtain ⟨nd, hwff⟩ := hwf
      have hsf := permEqFields_sortFields ⟨hkeys, hvals⟩ hperm nd
      have hkeyP : ∀ (l₁ l₂ : List (String × JVal)), PermEqFields l₁ l₂ →
          jsizeFields l₁ ≤ n → jwfFields l₁ = true →
          jhashPairs sha1 l₁ = jhashPairs sha1 l₂ := by
        intro l₁
        induction l₁ with
        | nil =>
          intro l₂ hf _ _
          have hl2 : l₂ = [] := by
            cases l₂ with
            | nil => rfl
            | cons q u => exact absurd hf.1 (by simp)
          subst hl2
          rfl
        | cons p t ihl =>
          intro l₂ hf hsz3 hwf3
          obtain ⟨k, v⟩ := p
          cases l₂ with
          | nil => exact absurd hf.1 (by simp)
          | cons q u =>
            obtain ⟨k2, w⟩ := q
            have hk : k = k2 := by
              have := hf.1
              simp only [List.map_cons, List.cons.injEq] at this
              exact this.1
            subst hk
            obtain ⟨hvw, htu⟩ := (permEqFields_cons).1 hf
            simp only [jsizeFields] at hsz3
            simp only [jwfFields, Bool.and_eq_true] at hwf3
            simp only [jhashPairs]
            rw [ih v w (by omega) hwf3.1 hvw, ihl u htu (by omega) hwf3.2]
      have hsz4 : jsizeFields (sortFieldsByKey fs) ≤ n := by
        rw [jsizeFields_sortFieldsByKey]; omega
      have hwf4 : jwfFields (sortFieldsByKey fs) = true := by
        refine (jwfFields_eq_true_iff _).2 fun p hp => ?_
        exact (jwfFields_eq_true_iff _).1 hwff p ((sortFieldsByKey_perm fs).subset hp)
      simp only [jhash]
      rw [hkeyP (sortFieldsByKey fs) (sortFieldsByKey gs) hsf hsz4 hwf4]

/-- `calculateBuildId` from build-sandbox.js: hash the seeded environment,
the source tag, the manifest's name, version and esy section, and the
direct dependencies' ids; in test mode (`ESY__TEST`) the hash suffix is
omitted. -/
def calculateBuildId (sha1 : String → String) (testMode : Bool) (env : JVal)
    (name version : String) (esy : JVal) (source : String)
    (depIds : List String) : String :=
  let h := jhash sha1 (.obj
    [("env", env),
     ("source", .str source),
     ("packageJson", .obj
       [("name", .str name), ("version", .str version), ("esy", esy)]),
     ("dependencies", .arr (depIds.map JVal.str))])
  if testMode then
    normalizePackageName name ++ "-" ++
      (if version = "" then "0.0.0" else version)
  else
    mkBuildId name version h

/-- A package manifest tree as the crawler sees it: the id-relevant
manifest data plus the resolved dependency subtrees. -/
inductive PkgTree where
  | mk (name version : String) (esy : JVal) (source : String)
      (deps : List PkgTree)

mutual

/-- The id assigned by the crawl: `calculateBuildId` over the manifest
with the dependencies' ids computed recursively. -/
def computeBuildId (sha1 : String → String) (testMode : Bool) (env : JVal) :
    PkgTree → String
  | .mk name version esy source deps =>
    calculateBuildId sha1 testMode env name version esy source
      (computeBuildIds sha1 testMode env deps)

def computeBuildIds (sha1 : String → String) (testMode : Bool) (env : JVal) :
    List PkgTree → List String
  | [] => []
  | t :: ts =>
    computeBuildId sha1 testMode env t :: computeBuildIds sha1 testMode env ts

end

lemma jwfList_map_str : ∀ l : List String, jwfList (l.map JVal.str) = true := by
  intro l
  induction l with
  | nil => rfl
  | cons s t ih => simp [jwfList, jwf, ih]

/-- C1: the build id is deterministic under permutations of object
iteration order anywhere in the hashed inputs (the seeded environment and
the manifest's esy section, e.g. its `exportedEnv` keys), and a build's id
reads its dependencies only through the ordered list of their ids — so a
change in an unrelated sibling build, which appears in no hashed input,
cannot change it, and even a change inside a dependency subtree leaves the
dependent's id intact as long as the dependency ids are unchanged. -/
theorem C1_calculateBuildId_deterministic
    (sha1 : String → String) (testMode : Bool) (env env2 esy esy2 : JVal)
    (name version source : String) (depIds : List String)
    (hwe : jwf env = true) (hpe : PermEq env env2)
    (hwy : jwf esy = true) (hpy : PermEq esy esy2) :
    (calculateBuildId sha1 testMode env name version esy source depIds =
      calculateBuildId sha1 testMode env2 name version esy2 source depIds)
    ∧ ∀ (name2 version2 : String) (esy3 : JVal) (source2 : String)
        (deps deps2 : List PkgTree),
        computeBuildIds sha1 testMode env deps =
          computeBuildIds sha1 testMode env deps2 →
        computeBuildId sha1 testMode env
            (.mk name2 version2 esy3 source2 deps) =
          computeBuildId sha1 testMode env
            (.mk name2 version2 esy3 source2 deps2) := by
  constructor
  · cases testMode with
    | true => rfl
    | false =>
      simp only [calculateBuildId, Bool.false_eq_true, if_false]
      have hbig : PermEq
          (.obj [("env", env), ("source", .str source),
            ("packageJson", .obj [("name", .str name),
              ("version", .str version), ("esy", esy)]),
            ("dependencies", .arr (depIds.map JVal.str))])
          (.obj [("env", env2), ("source", .str source),
            ("packageJson", .obj [("name", .str name),
              ("version", .str version), ("esy", esy2)]),
            ("dependencies", .arr (depIds.map JVal.str))]) := by
        refine PermEq.obj ?_ ?_ (List.Perm.refl _)
        · rfl
        · simp only [List.map_cons, List.map_nil]
          refine List.Forall₂.cons hpe ?_
          refine List.Forall₂.cons (permEq_refl _) ?_
          refine List.Forall₂.cons ?_ ?_
          · refine PermEq.obj ?_ ?_ (List.Perm.refl _)
            · rfl
            · simp only [List.map_cons, List.map_nil]
              exact List.Forall₂.cons (permEq_refl _)
                (List.Forall₂.cons (permEq_refl _)
                  (List.Forall₂.cons hpy List.Forall₂.nil))
          · exact List.Forall₂.cons (permEq_refl _) List.Forall₂.nil
      have hbigwf : jwf (.obj [("env", env), ("source", .str source),
          ("packageJson", .obj [("name", .str name),
            ("version", .str version), ("esy", esy)]),
          ("dependencies", .arr (depIds.map JVal.str))]) = true := by
        simp [jwf, jwfFields, hwe, hwy, jwfList_map_str]
      rw [jhash_congr_of_permEq sha1 (jsize (.obj [("env", env),
          ("source", .str source),
          ("packageJson", .obj [("name", .str name),
            ("version", .str version), ("esy", esy)]),
          ("dependencies", .arr (depIds.map JVal.str))])) _ _
        (Nat.le_refl _) hbigwf hbig]
  · intro name2 version2 esy3 source2 deps deps2 heq
    simp only [computeBuildId]
    rw [heq]

def cexEnvA : JVal := .obj [("PATH", .str "/bin"), ("SHELL", .str "sh")]

def cexEnvB : JVal := .obj [("SHELL", .str "sh"), ("PATH", .str "/bin")]

def cexEsyA : JVal := .obj [("build", .str "make"),
  ("exportedEnv", .obj [("a__x", .str "1"), ("a__y", .str "2")])]

def cexEsyB : JVal := .obj [("build", .str "make"),
  ("exportedEnv", .obj [("a__y", .str "2"), ("a__x", .str "1")])]

def cexDepB1 : PkgTree :=
  .mk "b" "2.0" (.obj [("build", .str "make")]) "local:/b" []

def cexDepB2 : PkgTree := .mk "b" "2.0" .null "local:/b-moved" []

theorem C1_calculateBuildId_deterministic_witness :
    (jwf cexEnvA = true ∧ PermEq cexEnvA cexEnvB
      ∧ jwf cexEsyA = true ∧ PermEq cexEsyA cexEsyB)
    ∧ calculateBuildId idString false cexEnvA "pkg" "1.0.0" cexEsyA
        "local:/src" ["dep-1.0.0-aa"] =
      calculateBuildId idString false cexEnvB "pkg" "1.0.0" cexEsyB
        "local:/src" ["dep-1.0.0-aa"]
    ∧ computeBuildIds idString true cexEnvA [cexDepB1] =
        computeBuildIds idString true cexEnvA [cexDepB2]
    ∧ computeBuildId idString true cexEnvA
        (.mk "a" "1.0" JVal.null "local:/a" [cexDepB1]) =
      computeBuildId idString true cexEnvA
        (.mk "a" "1.0" JVal.null "local:/a" [cexDepB2]) := by
  have hwfA : jwf cexEnvA = true := by
    simp [cexEnvA, jwf, jwfFields]
  have hwfEsyA : jwf cexEsyA = true := by
    simp [cexEsyA, jwf, jwfFields]
  have hpeEnv : PermEq cexEnvA cexEnvB := by
    refine PermEq.obj ?_ ?_
      (List.Perm.swap ("SHELL", JVal.str "sh") ("PATH", JVal.str "/bin") [])
    · rfl
    · exact List.Forall₂.cons (permEq_refl _)
        (List.Forall₂.cons (permEq_refl _) List.Forall₂.nil)
  have hpeEsy : PermEq cexEsyA cexEsyB := by
    refine PermEq.obj ?_ ?_ (List.Perm.refl _)
    · rfl
    · refine List.Forall₂.cons (permEq_refl _) ?_
      refine List.Forall₂.cons ?_ List.Forall₂.nil
      refine PermEq.obj ?_ ?_
        (List.Perm.swap ("a__y", JVal.str "2") ("a__x", JVal.str "1") [])
      · rfl
      · exact List.Forall₂.cons (permEq_refl _)
          (List.Forall₂.cons (permEq_refl _) List.Forall₂.nil)
  have hdeps : computeBuildIds idString true cexEnvA [cexDepB1] =
      computeBuildIds idString true cexEnvA [cexDepB2] := by
    simp [computeBuildIds, computeBuildId, calculateBuildId,
      cexDepB1, cexDepB2]
  refine ⟨⟨hwfA, hpeEnv, hwfEsyA, hpeEsy⟩, ?_, hdeps, ?_⟩
  · exact (C1_calculateBuildId_deterministic idString false cexEnvA cexEnvB
      cexEsyA cexEsyB "pkg" "1.0.0" "local:/src" ["dep-1.0.0-aa"]
      hwfA hpeEnv hwfEsyA hpeEsy).1
  · exact (C1_calculateBuildId_deterministic idString true cexEnvA cexEnvB
      cexEsyA cexEsyB "pkg" "1.0.0" "local:/src" ["dep-1.0.0-aa"]
      hwfA hpeEnv hwfEsyA hpeEsy).2 "a" "1.0" JVal.null "local:/a"
      [cexDepB1] [cexDepB2] hdeps

/-! ## Graph primitives (src/esy/graph.js)

`traverseDeepFirst` performs a depth-first post-order traversal with a
set of seen ids; `collectTransitiveDependencies` collects the visited
nodes, skips the root (the source filters by reference equality
`cur !== node`; since the seen-set is keyed by id and the root is marked
first, the root's own visit is the only one carrying the root's id),
and reverses. Graphs are embedded as trees whose shared subgraphs are
duplicated; `IdCoherent` states the graph's defining invariant that
equal ids denote the same node. -/

inductive GNode where
  | mk (id : String) (deps : List GNode)

def GNode.id : GNode → String
  | .mk i _ => i

def GNode.deps : GNode → List GNode
  | .mk _ d => d

/-- The body of `traverseDeepFirst`, processing a worklist of sibling
nodes left to right: a node whose id was seen is skipped; otherwise its
id is marked, its dependencies are traversed, and the node itself is
emitted (post-order). Returns the emission list and the final seen set. -/
def dfsList (seen : List String) : List GNode → List GNode × List String
  | [] => ([], seen)
  | .mk i deps :: ds =>
    if i ∈ seen then dfsList seen ds
    else
      let r := dfsList (i :: seen) deps
      let r2 := dfsList r.2 ds
      (r.1 ++ .mk i deps :: r2.1, r2.2)
termination_by l => sizeOf l
decreasing_by
  all_goals simp
  all_goals omega

def traverseDeepFirst (n : GNode) : List GNode :=
  (dfsList [] [n]).1

def collectTransitiveDependencies (n : GNode) : List GNode :=
  ((traverseDeepFirst n).filter (fun c => c.id ≠ n.id)).reverse

/-- `b` is a transitive dependency of `a` (one or more `deps` edges). -/
inductive Reaches : GNode → GNode → Prop where
  | dep {a b : GNode} : b ∈ a.deps → Reaches a b
  | trans {a b c : GNode} : b ∈ a.deps → Reaches b c → Reaches a c

/-- Membership in the graph hanging off a root. -/
def InGraph (root y : GNode) : Prop := y = root ∨ Reaches root y

mutual

/-- All nodes of the tree, for stating coherence. -/
def nodesOf : GNode → List GNode
  | .mk i deps => .mk i deps :: nodesOfList deps

/-- Companion of `nodesOf` on dependency lists. -/
def nodesOfList : List GNode → List GNode
  | [] => []
  | d :: ds => nodesOf d ++ nodesOfList ds

end

/-- The id-keyed graph invariant: within one graph, equal ids denote the
same node (memoization by `id` assumes exactly this). -/
def IdCoherent (root : GNode) : Prop :=
  ∀ y ∈ nodesOf root, ∀ z ∈ nodesOf root, y.id = z.id → y = z

lemma sizeOf_mem_deps {a b : GNode} (h : b ∈ a.deps) : sizeOf b < sizeOf a := by
  cases a with
  | mk i deps =>
    simp only [GNode.deps] at h
    have := List.sizeOf_lt_of_mem h
    simp only [GNode.mk.sizeOf_spec]
    omega

lemma reaches_sizeOf {a b : GNode} (h : Reaches a b) : sizeOf b < sizeOf a := by
  induction h with
  | dep hm => exact sizeOf_mem_deps hm
  | trans hm _ ih => exact lt_trans ih (sizeOf_mem_deps hm)

lemma reaches_irrefl (a : GNode) : ¬ Reaches a a := fun h =>
  absurd (reaches_sizeOf h) (lt_irrefl _)

lemma reaches_trans {a b c : GNode} (h1 : Reaches a b) (h2 : Reaches b c) :
    Reaches a c := by
  induction h1 with
  | dep hm => exact .trans hm h2
  | trans hm _ ih => exact .trans hm (ih h2)

lemma inGraph_of_reaches {root x y : GNode} (hx : InGraph root x)
    (hxy : Reaches x y) : InGraph root y := by
  rcases hx with rfl | hx
  · exact Or.inr hxy
  · exact Or.inr (reaches_trans hx hxy)

lemma mem_nodesOf_self (n : GNode) : n ∈ nodesOf n := by
  cases n with
  | mk i deps => simp [nodesOf]

lemma mem_nodesOfList_of_mem {d : GNode} {ds : List GNode} (h : d ∈ ds) :
    ∀ x ∈ nodesOf d, x ∈ nodesOfList ds := by
  induction ds with
  | nil => cases h
  | cons e es ih =>
    intro x hx
    rcases List.mem_cons.1 h with rfl | h2
    · simp [nodesOfList, hx]
    · simp [nodesOfList, ih h2 x hx]

lemma reaches_mem_nodesOf {a b : GNode} (h : Reaches a b) : b ∈ nodesOf a := by
  induction h with
  | @dep a b hm =>
    cases a with
    | mk i deps =>
      simp only [GNode.deps] at hm
      simp only [nodesOf, List.mem_cons]
      exact Or.inr (mem_nodesOfList_of_mem hm _ (mem_nodesOf_self b))
  | @trans a b c hm hr ih =>
    cases a with
    | mk i deps =>
      simp only [GNode.deps] at hm
      simp only [nodesOf, List.mem_cons]
      exact Or.inr (mem_nodesOfList_of_mem hm _ ih)

lemma inGraph_mem_nodesOf {root y : GNode} (h : InGraph root y) :
    y ∈ nodesOf root := by
  rcases h with rfl | h
  · exact mem_nodesOf_self y
  · exact reaches_mem_nodesOf h

/-- Under coherence, equal ids of graph members force equal nodes. -/
lemma coherent_eq {root y z : GNode} (hcoh : IdCoherent root)
    (hy : InGraph root y) (hz : InGraph root z) (hid : y.id = z.id) :
    y = z :=
  hcoh y (inGraph_mem_nodesOf hy) z (inGraph_mem_nodesOf hz) hid

lemma dfs_seen_mono : ∀ (seen : List String) (l : List GNode),
    ∀ s ∈ seen, s ∈ (dfsList seen l).2 := by
  intro seen l
  induction seen, l using dfsList.induct with
  | case1 seen => intro s hs; simpa [dfsList] using hs
  | case2 seen i deps ds hmem ih =>
    intro s hs
    simpa [dfsList, hmem] using ih s hs
  | case3 seen i deps ds hmem r ihdeps ihds =>
    intro s hs
    simp only [dfsList, if_neg hmem]
    exact ihds s (ihdeps s (List.mem_cons_of_mem _ hs))

lemma dfs_seen_perm : ∀ (seen : List String) (l : List GNode),
    List.Perm (dfsList seen l).2 ((dfsList seen l).1.map GNode.id ++ seen) := by
  intro seen l
  induction seen, l using dfsList.induct with
  | case1 seen => simp [dfsList]
  | case2 seen i deps ds hmem ih => simpa [dfsList, hmem] using ih
  | case3 seen i deps ds hmem r ihdeps ihds =>
    simp only [dfsList, if_neg hmem]
    refine ihds.trans ?_
    refine (List.Perm.append_left _ ihdeps).trans ?_
    simp only [List.map_append, List.map_cons, GNode.id]
    have step1 : List.Perm
        ((dfsList r.2 ds).1.map GNode.id ++
          ((dfsList (i :: seen) deps).1.map GNode.id ++ i :: seen))
        (((dfsList r.2 ds).1.map GNode.id ++
          ((dfsList (i :: seen) deps).1.map GNode.id ++ [i])) ++ seen) := by
      simp [List.append_assoc]
    refine step1.trans ?_
    refine List.Perm.append_right seen ?_
    refine (List.perm_append_comm).trans ?_
    simp [List.append_assoc]

lemma dfs_seen_nodup : ∀ (seen : List String) (l : List GNode),
    seen.Nodup → (dfsList seen l).2.Nodup := by
  intro seen l
  induction seen, l using dfsList.induct with
  | case1 seen => intro h; simpa [dfsList] using h
  | case2 seen i deps ds hmem ih =>
    intro h
    simpa [dfsList, hmem] using ih h
  | case3 seen i deps ds hmem r ihdeps ihds =>
    intro h
    simp only [dfsList, if_neg hmem]
    exact ihds (ihdeps (List.nodup_cons.2 ⟨hmem, h⟩))

lemma dfs_sound : ∀ (seen : List String) (l : List GNode),
    ∀ x ∈ (dfsList seen l).1, ∃ d ∈ l, x = d ∨ Reaches d x := by
  intro seen l
  induction seen, l using dfsList.induct with
  | case1 seen => intro x hx; simp [dfsList] at hx
  | case2 seen i deps ds hmem ih =>
    intro x hx
    simp only [dfsList, if_pos hmem] at hx
    obtain ⟨d, hd, hr⟩ := ih x hx
    exact ⟨d, List.mem_cons_of_mem _ hd, hr⟩
  | case3 seen i deps ds hmem r ihdeps ihds =>
    intro x hx
    simp only [dfsList, if_neg hmem, List.mem_append, List.mem_cons] at hx
    rcases hx with hx | hx | hx
    · obtain ⟨e, he, hr⟩ := ihdeps x hx
      have hreach : Reaches (GNode.mk i deps) x := by
        rcases hr with rfl | hr
        · exact Reaches.dep (by simpa [GNode.deps] using he)
        · exact Reaches.trans (by simpa [GNode.deps] using he) hr
      exact ⟨GNode.mk i deps, List.mem_cons_self _ _, Or.inr hreach⟩
    · exact ⟨GNode.mk i deps, List.mem_cons_self _ _, Or.inl hx⟩
    · obtain ⟨d, hd, hr⟩ := ihds x hx
      exact ⟨d, List.mem_cons_of_mem _ hd, hr⟩

/-- Everything `y` transitively depends on has its id recorded. -/
def ReachClosedAt (seen : List String) (y : GNode) : Prop :=
  ∀ z, Reaches y z → z.id ∈ seen

/-- The traversal invariant on a seen set: every graph node whose id is
seen is either an ancestor of the current position (its visit is in
progress) or already reach-closed. -/
def GoodSeen (root : GNode) (anc : List GNode) (seen : List String) : Prop :=
  ∀ y, InGraph root y → y.id ∈ seen → y ∈ anc ∨ ReachClosedAt seen y

lemma reachClosedAt_mono {seen seen' : List String}
    (hsub : ∀ s ∈ seen, s ∈ seen') {y : GNode} (h : ReachClosedAt seen y) :
    ReachClosedAt seen' y :=
  fun z hz => hsub _ (h z hz)

lemma reachClosed_of_deps {d : GNode} {S : List String}
    (h : ∀ e ∈ d.deps, e.id ∈ S ∧ ReachClosedAt S e) : ReachClosedAt S d := by
  intro z hz
  cases hz with
  | dep hm => exact (h _ hm).1
  | trans hm hr => exact (h _ hm).2 _ hr

lemma goodSeen_pop {root d : GNode} {anc : List GNode} {S : List String}
    (hg : GoodSeen root (d :: anc) S) (hclosed : ReachClosedAt S d) :
    GoodSeen root anc S := by
  intro y hy hyid
  rcases hg y hy hyid with hmem | hcl
  · rcases List.mem_cons.1 hmem with rfl | hmem
    · exact Or.inr hclosed
    · exact Or.inl hmem
  · exact Or.inr hcl

lemma dfs_complete (root : GNode) (hcoh : IdCoherent root) :
    ∀ (seen : List String) (l : List GNode) (anc : List GNode),
      (∀ d ∈ l, InGraph root d) →
      (∀ d ∈ l, ∀ a ∈ anc, sizeOf d < sizeOf a) →
      (∀ a ∈ anc, InGraph root a) →
      GoodSeen root anc seen →
      GoodSeen root anc (dfsList seen l).2
      ∧ ∀ d ∈ l, d.id ∈ (dfsList seen l).2
        ∧ ReachClosedAt (dfsList seen l).2 d := by
  intro seen l
  induction seen, l using dfsList.induct with
  | case1 seen =>
    intro anc _ _ _ hg
    refine ⟨by simpa [dfsList] using hg, ?_⟩
    intro d hd
    cases hd
  | case2 seen i deps ds hmem ih =>
    intro anc hin hsize hanc hg
    have hd_closed : ReachClosedAt seen (GNode.mk i deps) := by
      rcases hg (GNode.mk i deps) (hin _ (List.mem_cons_self _ _))
          (by simpa [GNode.id] using hmem) with hmem2 | hcl
      · exact absurd (hsize _ (List.mem_cons_self _ _) _ hmem2)
          (lt_irrefl _)
      · exact hcl
    have hrec := ih anc (fun d hd => hin d (List.mem_cons_of_mem _ hd))
      (fun d hd => hsize d (List.mem_cons_of_mem _ hd))
      hanc hg
    simp only [dfsList, if_pos hmem]
    refine ⟨hrec.1, ?_⟩
    intro d hd
    rcases List.mem_cons.1 hd with rfl | hd
    · refine ⟨dfs_seen_mono seen ds _ (by simpa [GNode.id] using hmem), ?_⟩
      exact reachClosedAt_mono (dfs_seen_mono seen ds) hd_closed
    · exact hrec.2 d hd
  | case3 seen i deps ds hmem r ihdeps ihds =>
    intro anc hin hsize hanc hg
    have hind : InGraph root (GNode.mk i deps) :=
      hin _ (List.mem_cons_self _ _)
    have hgA : GoodSeen root (GNode.mk i deps :: anc) (i :: seen) := by
      intro y hy hyid
      rcases List.mem_cons.1 hyid with hyi | hyseen
      · have : y = GNode.mk i deps :=
          coherent_eq hcoh hy hind (by simpa [GNode.id] using hyi)
        exact Or.inl (this ▸ List.mem_cons_self _ _)
      · rcases hg y hy hyseen with hmem2 | hcl
        · exact Or.inl (List.mem_cons_of_mem _ hmem2)
        · exact Or.inr (reachClosedAt_mono (fun s hs => List.mem_cons_of_mem _ hs) hcl)
    have hdeps_in : ∀ e ∈ deps, InGraph root e := fun e he =>
      inGraph_of_reaches hind (Reaches.dep (by simpa [GNode.deps] using he))
    have hdeps_size : ∀ e ∈ deps, ∀ a ∈ GNode.mk i deps :: anc,
        sizeOf e < sizeOf a := by
      intro e he a ha
      have he2 : sizeOf e < sizeOf (GNode.mk i deps) :=
        sizeOf_mem_deps (by simpa [GNode.deps] using he)
      rcases List.mem_cons.1 ha with rfl | ha
      · exact he2
      · exact lt_trans he2 (hsize _ (List.mem_cons_self _ _) _ ha)
    have hanc2 : ∀ a ∈ GNode.mk i deps :: anc, InGraph root a := by
      intro a ha
      rcases List.mem_cons.1 ha with rfl | ha
      · exact hind
      · exact hanc a ha
    have hrecd := ihdeps (GNode.mk i deps :: anc) hdeps_in hdeps_size hanc2 hgA
    have hclosed_d : ReachClosedAt (dfsList (i :: seen) deps).2
        (GNode.mk i deps) := by
      refine reachClosed_of_deps ?_
      intro e he
      exact hrecd.2 e (by simpa [GNode.deps] using he)
    have hid_in : GNode.id (GNode.mk i deps) ∈ (dfsList (i :: seen) deps).2 := by
      simpa [GNode.id] using
        dfs_seen_mono (i :: seen) deps i (List.mem_cons_self _ _)
    have hgD : GoodSeen root anc (dfsList (i :: seen) deps).2 :=
      goodSeen_pop hrecd.1 hclosed_d
    have hrecds := ihds anc (fun d hd => hin d (List.mem_cons_of_mem _ hd))
      (fun d hd => hsize d (List.mem_cons_of_mem _ hd))
      hanc hgD
    simp only [dfsList, if_neg hmem]
    refine ⟨hrecds.1, ?_⟩
    intro d hd
    rcases List.mem_cons.1 hd with rfl | hd
    · refine ⟨dfs_seen_mono _ ds _ hid_in, ?_⟩
      exact reachClosedAt_mono (dfs_seen_mono _ ds) hclosed_d
    · exact hrecds.2 d hd

/-- A list of nodes is in reverse topological order relative to a seen set:
each element reaches only nodes whose ids are recorded before or at it. -/
def OrderOK : List String → List GNode → Prop
  | _, [] => True
  | seen, x :: rest =>
    (∀ z, Reaches x z → z.id ∈ seen) ∧ OrderOK (x.id :: seen) rest

lemma orderOK_mono : ∀ (out : List GNode) (seen₁ seen₂ : List String),
    (∀ s ∈ seen₁, s ∈ seen₂) → OrderOK seen₁ out → OrderOK seen₂ out := by
  intro out
  induction out with
  | nil => intro _ _ _ _; trivial
  | cons x rest ih =>
    intro seen₁ seen₂ hsub h
    refine ⟨fun z hz => hsub _ (h.1 z hz), ?_⟩
    refine ih _ _ ?_ h.2
    intro s hs
    rcases List.mem_cons.1 hs with rfl | hs
    · exact List.mem_cons_self _ _
    · exact List.mem_cons_of_mem _ (hsub _ hs)

lemma orderOK_remove (a : String) : ∀ (out : List GNode) (seen : List String),
    OrderOK (a :: seen) out →
    (∀ x ∈ out, ∀ z, Reaches x z → z.id ≠ a) →
    OrderOK seen out := by
  intro out
  induction out with
  | nil => intro _ _ _; trivial
  | cons x rest ih =>
    intro seen h hne
    refine ⟨?_, ?_⟩
    · intro z hz
      rcases List.mem_cons.1 (h.1 z hz) with hz2 | hz2
      · exact absurd hz2 (hne x (List.mem_cons_self _ _) z hz)
      · exact hz2
    · refine ih (x.id :: seen) ?_ ?_
      · refine orderOK_mono _ _ _ ?_ h.2
        intro s hs
        rcases List.mem_cons.1 hs with rfl | hs
        · exact List.mem_cons_of_mem _ (List.mem_cons_self _ _)
        · rcases List.mem_cons.1 hs with rfl | hs
          · exact List.mem_cons_self _ _
          · exact List.mem_cons_of_mem _ (List.mem_cons_of_mem _ hs)
      · exact fun y hy => hne y (List.mem_cons_of_mem _ hy)

lemma orderOK_append : ∀ (l1 l2 : List GNode) (seen : List String),
    OrderOK seen l1 → OrderOK (l1.map GNode.id ++ seen) l2 →
    OrderOK seen (l1 ++ l2) := by
  intro l1
  induction l1 with
  | nil => intro l2 seen _ h2; simpa using h2
  | cons x t ih =>
    intro l2 seen h1 h2
    refine ⟨h1.1, ?_⟩
    refine ih l2 (x.id :: seen) h1.2 ?_
    refine orderOK_mono _ _ _ ?_ h2
    intro s hs
    simp only [List.map_cons, List.cons_append, List.mem_cons,
      List.mem_append] at hs ⊢
    tauto

lemma orderOK_split : ∀ (l1 : List GNode) (x : GNode) (l2 : List GNode)
    (seen : List String), OrderOK seen (l1 ++ x :: l2) →
    ∀ z, Reaches x z → z.id ∈ l1.map GNode.id ++ seen := by
  intro l1
  induction l1 with
  | nil => intro x l2 seen h z hz; simpa using h.1 z hz
  | cons y t ih =>
    intro x l2 seen h z hz
    have := ih x l2 (y.id :: seen) h.2 z hz
    simp only [List.map_cons, List.cons_append, List.mem_cons,
      List.mem_append] at this ⊢
    tauto

lemma dfs_ordered (root : GNode) (hcoh : IdCoherent root) :
    ∀ (seen : List String) (l : List GNode) (anc : List GNode),
      (∀ d ∈ l, InGraph root d) →
      (∀ d ∈ l, ∀ a ∈ anc, sizeOf d < sizeOf a) →
      (∀ a ∈ anc, InGraph root a) →
      GoodSeen root anc seen →
      OrderOK seen (dfsList seen l).1 := by
  intro seen l
  induction seen, l using dfsList.induct with
  | case1 seen =>
    intro anc _ _ _ _
    simp only [dfsList]
    trivial
  | case2 seen i deps ds hmem ih =>
    intro anc hin hsize hanc hg
    simp only [dfsList, if_pos hmem]
    exact ih anc (fun d hd => hin d (List.mem_cons_of_mem _ hd))
      (fun d hd => hsize d (List.mem_cons_of_mem _ hd)) hanc hg
  | case3 seen i deps ds hmem r ihdeps ihds =>
    intro anc hin hsize hanc hg
    have hind : InGraph root (GNode.mk i deps) :=
      hin _ (List.mem_cons_self _ _)
    have hgA : GoodSeen root (GNode.mk i deps :: anc) (i :: seen) := by
      intro y hy hyid
      rcases List.mem_cons.1 hyid with hyi | hyseen
      · have : y = GNode.mk i deps :=
          coherent_eq hcoh hy hind (by simpa [GNode.id] using hyi)
        exact Or.inl (this ▸ List.mem_cons_self _ _)
      · rcases hg y hy hyseen with hmem2 | hcl
        · exact Or.inl (List.mem_cons_of_mem _ hmem2)
        · exact Or.inr (reachClosedAt_mono (fun s hs => List.mem_cons_of_mem _ hs) hcl)
    have hdeps_in : ∀ e ∈ deps, InGraph root e := fun e he =>
      inGraph_of_reaches hind (Reaches.dep (by simpa [GNode.deps] using he))
    have hdeps_size : ∀ e ∈ deps, ∀ a ∈ GNode.mk i deps :: anc,
        sizeOf e < sizeOf a := by
      intro e he a ha
      have he2 : sizeOf e < sizeOf (GNode.mk i deps) :=
        sizeOf_mem_deps (by simpa [GNode.deps] using he)
      rcases List.mem_cons.1 ha with rfl | ha
      · exact he2
      · exact lt_trans he2 (hsize _ (List.mem_cons_self _ _) _ ha)
    have hanc2 : ∀ a ∈ GNode.mk i deps :: anc, InGraph root a := by
      intro a ha
      rcases List.mem_cons.1 ha with rfl | ha
      · exact hind
      · exact hanc a ha
    have hcompl := dfs_complete root hcoh (i :: seen) deps
      (GNode.mk i deps :: anc) hdeps_in hdeps_size hanc2 hgA
    have hclosed_d : ReachClosedAt (dfsList (i :: seen) deps).2
        (GNode.mk i deps) := by
      refine reachClosed_of_deps ?_
      intro e he
      exact hcompl.2 e (by simpa [GNode.deps] using he)
    have hordA : OrderOK (i :: seen) (dfsList (i :: seen) deps).1 :=
      ihdeps (GNode.mk i deps :: anc) hdeps_in hdeps_size hanc2 hgA
    have hreach_of_out : ∀ x ∈ (dfsList (i :: seen) deps).1,
        Reaches (GNode.mk i deps) x := by
      intro x hx
      obtain ⟨e, he, hr⟩ := dfs_sound (i :: seen) deps x hx
      rcases hr with rfl | hr
      · exact Reaches.dep (by simpa [GNode.deps] using he)
      · exact Reaches.trans (by simpa [GNode.deps] using he) hr
    have hord1 : OrderOK seen (dfsList (i :: seen) deps).1 := by
      refine orderOK_remove i _ seen hordA ?_
      intro x hx z hz hzi
      have hdx : Reaches (GNode.mk i deps) x := hreach_of_out x hx
      have hxin : InGraph root x := inGraph_of_reaches hind hdx
      have hzin : InGraph root z := inGraph_of_reaches hxin hz
      have hzd : z = GNode.mk i deps :=
        coherent_eq hcoh hzin hind (by simpa [GNode.id] using hzi)
      have : Reaches (GNode.mk i deps) (GNode.mk i deps) :=
        reaches_trans hdx (hzd ▸ hz)
      exact reaches_irrefl _ this
    have hhead : ∀ z, Reaches (GNode.mk i deps) z →
        z.id ∈ (dfsList (i :: seen) deps).1.map GNode.id ++ seen := by
      intro z hz
      have hzin : z.id ∈ (dfsList (i :: seen) deps).2 := hclosed_d z hz
      have := (dfs_seen_perm (i :: seen) deps).mem_iff.1 hzin
      simp only [List.mem_append, List.mem_cons] at this ⊢
      rcases this with h1 | h2 | h3
      · exact Or.inl h1
      · exfalso
        have hzg : InGraph root z := inGraph_of_reaches hind hz
        have hzd : z = GNode.mk i deps :=
          coherent_eq hcoh hzg hind (by simpa [GNode.id] using h2)
        exact reaches_irrefl _ (hzd ▸ hz)
      · exact Or.inr h3
    have hgD : GoodSeen root anc (dfsList (i :: seen) deps).2 :=
      goodSeen_pop hcompl.1 hclosed_d
    have hordds : OrderOK (dfsList (i :: seen) deps).2
        (dfsList (dfsList (i :: seen) deps).2 ds).1 :=
      ihds anc (fun d hd => hin d (List.mem_cons_of_mem _ hd))
        (fun d hd => hsize d (List.mem_cons_of_mem _ hd)) hanc hgD
    have hord2 : OrderOK
        (GNode.id (GNode.mk i deps) ::
          ((dfsList (i :: seen) deps).1.map GNode.id ++ seen))
        (dfsList (dfsList (i :: seen) deps).2 ds).1 := by
      refine orderOK_mono _ _ _ ?_ hordds
      intro s hs
      have := (dfs_seen_perm (i :: seen) deps).mem_iff.1 hs
      simp only [List.mem_append, List.mem_cons, GNode.id] at this ⊢
      tauto
    simp only [dfsList, if_neg hmem]
    exact orderOK_append _ _ seen hord1 ⟨hhead, hord2⟩

lemma orderOK_pairwise : ∀ (L : List GNode) (seen : List String),
    OrderOK seen L → (L.map GNode.id ++ seen).Nodup →
    List.Pairwise (fun a b => ¬ Reaches a b) L := by
  intro L
  induction L with
  | nil => intro _ _ _; exact List.Pairwise.nil
  | cons x rest ih =>
    intro seen h hnd
    simp only [List.map_cons, List.cons_append, List.nodup_cons] at hnd
    refine List.Pairwise.cons ?_ ?_
    · intro b hb hrb
      have hbseen : b.id ∈ seen := h.1 b hrb
      have hbrest : b.id ∈ rest.map GNode.id := List.mem_map_of_mem _ hb
      exact (List.nodup_append.1 hnd.2).2.2 hbrest hbseen
    · refine ih (x.id :: seen) h.2 ?_
      exact (List.perm_middle.symm).nodup (List.nodup_cons.2 hnd)

/-- Leaf node of the three-node chain used to exercise the traversal. -/
def cexB2 : GNode := .mk "b" []

/-- Middle node of the chain; depends on `cexB2`. -/
def cexA2 : GNode := .mk "a" [cexB2]

/-- Root of the chain r → a → b. -/
def cexR2 : GNode := .mk "r" [cexA2]

/-- C2: REFUTED as stated. The claim says every element of
`collectTransitiveDependencies(root)` precedes all of its transitive
dependents (leaves first). For the chain r → a → b the function returns
[a, b]: the dependent `a` comes first and the leaf `b` comes last, so
`a` (a dependent of `b`) does not follow `b`; the pairwise property
"no earlier element reaches a later one" fails. The code reverses the
post-order, producing the opposite of the claimed order. -/
theorem C2_counterexample :
    Reaches cexA2 cexB2
    ∧ collectTransitiveDependencies cexR2 = [cexA2, cexB2]
    ∧ ¬ List.Pairwise (fun x y => ¬ Reaches x y)
        (collectTransitiveDependencies cexR2) := by
  have hr : Reaches cexA2 cexB2 :=
    Reaches.dep (by simp [cexA2, GNode.deps])
  have hL : collectTransitiveDependencies cexR2 = [cexA2, cexB2] := by
    simp [collectTransitiveDependencies, traverseDeepFirst, dfsList,
      cexR2, cexA2, cexB2, GNode.id]
  refine ⟨hr, hL, ?_⟩
  rw [hL]
  intro h
  exact (List.pairwise_cons.1 h).1 cexB2 (by simp) hr

/-- C2: corrected order. If distinct nodes of the graph carry distinct
ids, `collectTransitiveDependencies root` contains exactly the
transitive dependencies of the root (root excluded), each distinct id
once, in REVERSE topological order: no later element reaches an earlier
one, i.e. every element precedes all of its transitive dependencies —
dependents come first and leaves come last, the reverse of the claimed
order. -/
theorem C2_amended (root : GNode) (hcoh : IdCoherent root) :
    (∀ x, x ∈ collectTransitiveDependencies root ↔ Reaches root x)
    ∧ ((collectTransitiveDependencies root).map GNode.id).Nodup
    ∧ List.Pairwise (fun a b => ¬ Reaches b a)
        (collectTransitiveDependencies root) := by
  have hin : ∀ d ∈ [root], InGraph root d := by
    intro d hd
    rcases List.mem_cons.1 hd with rfl | hd
    · exact Or.inl rfl
    · cases hd
  have hg0 : GoodSeen root [] [] := fun y _ hy => absurd hy (List.not_mem_nil _)
  have hcompl := dfs_complete root hcoh [] [root] [] hin
    (by intro d _ a ha; cases ha) (by intro a ha; cases ha) hg0
  have hroot := hcompl.2 root (List.mem_cons_self _ _)
  have hperm := dfs_seen_perm [] [root]
  have hnd : (dfsList [] [root]).2.Nodup :=
    dfs_seen_nodup [] [root] List.nodup_nil
  have hLnd : ((dfsList [] [root]).1.map GNode.id).Nodup := by
    simpa using hperm.nodup_iff.1 hnd
  have hsound := dfs_sound [] [root]
  have hord := dfs_ordered root hcoh [] [root] [] hin
    (by intro d _ a ha; cases ha) (by intro a ha; cases ha) hg0
  have hLsound : ∀ x ∈ (dfsList [] [root]).1, x = root ∨ Reaches root x := by
    intro x hx
    obtain ⟨d, hd, hr⟩ := hsound x hx
    rcases List.mem_cons.1 hd with rfl | hd
    · exact hr
    · cases hd
  have hLin : ∀ x ∈ (dfsList [] [root]).1, InGraph root x := fun x hx =>
    hLsound x hx
  have hmemL : ∀ y, InGraph root y → y ∈ (dfsList [] [root]).1 := by
    intro y hy
    have hid : y.id ∈ (dfsList [] [root]).2 := by
      rcases hy with rfl | hr
      · exact hroot.1
      · exact hroot.2 _ hr
    have hid2 : y.id ∈ (dfsList [] [root]).1.map GNode.id := by
      simpa using hperm.mem_iff.1 hid
    obtain ⟨x, hx, hxy⟩ := List.mem_map.1 hid2
    have : x = y := coherent_eq hcoh (hLin x hx) hy hxy
    exact this ▸ hx
  have hpairL : List.Pairwise (fun a b => ¬ Reaches a b)
      (dfsList [] [root]).1 :=
    orderOK_pairwise _ [] hord (by simpa using hLnd)
  have hfilt : ∀ x, x ∈ collectTransitiveDependencies root ↔
      x ∈ (dfsList [] [root]).1 ∧ x.id ≠ root.id := by
    intro x
    simp [collectTransitiveDependencies, traverseDeepFirst, List.mem_filter]
  refine ⟨?_, ?_, ?_⟩
  · intro x
    rw [hfilt x]
    constructor
    · rintro ⟨hx, hne⟩
      rcases hLsound x hx with rfl | hr
      · exact absurd rfl hne
      · exact hr
    · intro hr
      refine ⟨hmemL x (Or.inr hr), ?_⟩
      intro hxr
      have : x = root := coherent_eq hcoh (Or.inr hr) (Or.inl rfl) hxr
      exact reaches_irrefl root (this ▸ hr)
  · have hsub : List.Sublist
        (((dfsList [] [root]).1.filter
          (fun c => c.id ≠ root.id)).map GNode.id)
        ((dfsList [] [root]).1.map GNode.id) :=
      (List.filter_sublist _).map _
    have hnd2 : (((dfsList [] [root]).1.filter
        (fun c => c.id ≠ root.id)).map GNode.id).Nodup := hsub.nodup hLnd
    simp only [collectTransitiveDependencies, traverseDeepFirst,
      List.map_reverse, List.nodup_reverse]
    exact hnd2
  · have hpairF : List.Pairwise (fun a b => ¬ Reaches a b)
        ((dfsList [] [root]).1.filter (fun c => c.id ≠ root.id)) :=
      hpairL.sublist (List.filter_sublist _)
    simp only [collectTransitiveDependencies, traverseDeepFirst]
    exact List.pairwise_reverse.2 hpairF

/-- Concrete run of the corrected C2 statement on the chain r → a → b,
whose nodes carry pairwise distinct ids. -/
theorem C2_amended_witness :
    (cexB2 ∈ collectTransitiveDependencies cexR2 ↔ Reaches cexR2 cexB2)
    ∧ ((collectTransitiveDependencies cexR2).map GNode.id).Nodup
    ∧ List.Pairwise (fun a b => ¬ Reaches b a)
        (collectTransitiveDependencies cexR2) := by
  have hcoh : IdCoherent cexR2 := by
    intro y hy z hz hid
    simp only [nodesOf, nodesOfList, cexR2, cexA2, cexB2, List.mem_cons,
      List.append_nil, List.not_mem_nil, or_false] at hy hz
    rcases hy with rfl | rfl | rfl <;> rcases hz with rfl | rfl | rfl <;>
      first
        | rfl
        | (exfalso; simp [GNode.id] at hid)
  have h := C2_amended cexR2 hcoh
  exact ⟨h.1 cexB2, h.2.1, h.2.2⟩

/-! ## Sandbox crawling (src/src/esy/build-sandbox.js)

`crawlBuild` reads a package manifest and crawls its dependencies with
`crawlDependencies`, extending the dependency trace with the package's
name. `crawlDependencies` iterates over the dependency specs: a name
already present in the trace records a circular-dependency error and
skips recursion (`continue`); a name that fails to resolve is collected
into `missingPackages`, reported in one batched error after the loop;
otherwise the dependency is crawled recursively, its errors are
appended and its build is registered under its id.

The package universe is embedded as an association list from package
name to the dependency names listed in its manifest; `context.resolve`
succeeds exactly when the name is present. A build's id is embedded as
its name (`calculateBuildId` is studied separately and plays no role in
crawl control flow). The recursion terminates because every recursive
visit enters a name that is present in the universe and absent from
the trace, so the count of unvisited universe names strictly
decreases — this measure is exactly the argument for why the JS
recursion, guarded by `dependencyTrace.indexOf(name) > -1`, cannot
recurse infinitely. -/

/-- Message built by `formatCircularDependenciesError` (the source
template has an unmatched opening quote before the name). -/
def formatCircularDependenciesError (dependency : String)
    (dependencyTrace : List String) : String :=
  "Circular dependency \x22" ++ dependency ++ " detected\n  At "
    ++ String.intercalate " -> " dependencyTrace

/-- Message built by `formatMissingPackagesError`: the first three
missing names are quoted, any excess is summarised as a count. -/
def formatMissingPackagesError (missingPackages : List String)
    (dependencyTrace : List String) : String :=
  let packagesToReport := missingPackages.take 3
  let packagesMessage :=
    String.intercalate ", "
      (packagesToReport.map (fun p => "\x22" ++ p ++ "\x22"))
  let extraPackagesMessage :=
    if packagesToReport.length < missingPackages.length then
      " (and " ++ toString (missingPackages.length - packagesToReport.length)
        ++ " more)"
    else ""
  "Cannot resolve " ++ packagesMessage ++ extraPackagesMessage
    ++ " packages\n  At " ++ String.intercalate " -> " dependencyTrace
    ++ "\n  Did you forget to run \x22esy install\x22 command?"

/-- Result of `crawlBuild`: the fields of the returned BuildSpec that
participate in crawl control flow. -/
structure CrawlSpec where
  id : String
  dependencies : List String
  errors : List String
deriving DecidableEq

/-- Distinct package names known to the universe. -/
def crawlNames (u : List (String × List String)) : List String :=
  (u.map Prod.fst).dedup

/-- Count of universe names not yet on the dependency trace; the
quantity that shrinks at every recursive visit. -/
def crawlMeasure (u : List (String × List String))
    (dependencyTrace : List String) : Nat :=
  ((crawlNames u).filter (fun n => decide (n ∉ dependencyTrace))).length

lemma length_filter_lt_of_mem_neg {α : Type} {p : α → Bool} :
    ∀ (L : List α) (x : α), x ∈ L → p x = false →
      (L.filter p).length < L.length := by
  intro L
  induction L with
  | nil => intro x hx; cases hx
  | cons y t ih =>
    intro x hx hpx
    rcases List.mem_cons.1 hx with rfl | hx
    · rw [List.filter_cons_of_neg (by simp [hpx])]
      exact Nat.lt_succ_of_le (List.length_filter_le _ _)
    · by_cases hy : p y = true
      · rw [List.filter_cons_of_pos hy]
        exact Nat.succ_lt_succ (ih x hx hpx)
      · rw [List.filter_cons_of_neg hy]
        exact Nat.lt_trans (ih x hx hpx) (Nat.lt_succ_self _)

lemma lookup_mem_keys :
    ∀ (u : List (String × List String)) (n : String) (ds : List String),
      List.lookup n u = some ds → n ∈ u.map Prod.fst := by
  intro u
  induction u with
  | nil => intro n ds h; simp [List.lookup] at h
  | cons kv rest ih =>
    intro n ds h
    rw [List.lookup] at h
    by_cases he : n == kv.1
    · simp only [List.map_cons, List.mem_cons]
      exact Or.inl (by simpa using he)
    · simp only [Bool.not_eq_true] at he
      rw [he] at h
      exact List.mem_cons_of_mem _ (ih n ds h)

lemma crawlMeasure_decr {u : List (String × List String)}
    {dependencyTrace : List String} {name : String}
    (hmem : name ∈ u.map Prod.fst) (htr : name ∉ dependencyTrace) :
    crawlMeasure u (dependencyTrace ++ [name]) <
      crawlMeasure u dependencyTrace := by
  unfold crawlMeasure
  have h1 : (crawlNames u).filter
        (fun n => decide (n ∉ dependencyTrace ++ [name]))
      = ((crawlNames u).filter
          (fun n => decide (n ∉ dependencyTrace))).filter
          (fun n => decide (n ≠ name)) := by
    rw [List.filter_filter]
    refine List.filter_congr ?_
    intro a _
    by_cases ha : a = name <;> by_cases hb : a ∈ dependencyTrace <;>
      simp [ha, hb]
  rw [h1]
  refine length_filter_lt_of_mem_neg _ name ?_ (by simp)
  rw [List.mem_filter]
  exact ⟨by simpa [crawlNames] using List.mem_dedup.2 hmem, by simp [htr]⟩

mutual

/-- Crawl of one package: the manifest's dependency names are crawled
with the trace extended by the package's own name; the resulting
BuildSpec carries the registered dependency ids and accumulated
errors. -/
def crawlBuild (u : List (String × List String)) (name : String)
    (deps : List String) (dependencyTrace : List String) : CrawlSpec :=
  let r := crawlDependencies u deps (dependencyTrace ++ [name])
  { id := name, dependencies := r.1, errors := r.2 }
termination_by (crawlMeasure u (dependencyTrace ++ [name]), deps.length, 2)
decreasing_by
  apply Prod.Lex.right
  apply Prod.Lex.right
  omega

/-- Crawl of a dependency list: runs the loop, then appends the
batched missing-packages error if any name failed to resolve. -/
def crawlDependencies (u : List (String × List String))
    (dependencySpecs : List String) (dependencyTrace : List String) :
    List String × List String :=
  let r := crawlDepsLoop u dependencySpecs dependencyTrace
  (r.1, r.2.1 ++
    (if 0 < r.2.2.length then
      [formatMissingPackagesError r.2.2 dependencyTrace]
    else []))
termination_by (crawlMeasure u dependencyTrace, dependencySpecs.length, 1)
decreasing_by
  apply Prod.Lex.right
  apply Prod.Lex.right
  omega

/-- Loop body of `crawlDependencies`, returning the registered
dependency ids, the errors pushed during the loop, and the collected
missing package names, in iteration order. -/
def crawlDepsLoop (u : List (String × List String))
    (dependencySpecs : List String) (dependencyTrace : List String) :
    List String × List String × List String :=
  match dependencySpecs with
  | [] => ([], [], [])
  | name :: rest =>
    if htr : name ∈ dependencyTrace then
      let r := crawlDepsLoop u rest dependencyTrace
      (r.1, formatCircularDependenciesError name dependencyTrace :: r.2.1,
        r.2.2)
    else
      match hm : List.lookup name u with
      | none =>
        let r := crawlDepsLoop u rest dependencyTrace
        (r.1, r.2.1, name :: r.2.2)
      | some ds =>
        let b := crawlBuild u name ds dependencyTrace
        let r := crawlDepsLoop u rest dependencyTrace
        (b.id :: r.1.filter (fun x => decide (x ≠ b.id)),
          b.errors ++ r.2.1, r.2.2)
termination_by (crawlMeasure u dependencyTrace, dependencySpecs.length, 0)
decreasing_by
  all_goals simp_wf
  · apply Prod.Lex.right
    apply Prod.Lex.left
    omega
  · apply Prod.Lex.right
    apply Prod.Lex.left
    omega
  · apply Prod.Lex.left
    exact crawlMeasure_decr (lookup_mem_keys u y ds hm) htr
  · apply Prod.Lex.right
    apply Prod.Lex.left
    omega

end

end Esy
